import Mathlib

/-!
# B3a primary generator: direction, position and beta-spectrum sampling

A shallow embedding of `src/B3a/src/PrimaryGeneratorAction.cc`.

* `G4double` values are modelled by exact numbers: real numbers where the code
  calls `cos`, `sin`, `acos`, and an arbitrary number type `α` for the
  spectrum table, whose code only adds, subtracts and compares: a linearly
  ordered field (for instance `ℚ`, which evaluates) for exact arithmetic, and
  the type `Double` below for the rounded arithmetic of IEEE-754 binary64.
* The random engine behind `G4UniformRand()` is an explicit stream that is
  threaded through the calls in the order in which the source draws from it.
* An out-of-range `std::vector::operator[]` has no defined result; it is
  modelled by `none`.
-/

namespace B3

/-! ## Environment: random engine and standard output -/

/-- The part of the process state the generator touches: the remaining
outputs of the engine read by `G4UniformRand()`, the remaining outputs of the
engine read by the histogram sampler, and the text written to `std::cout`. -/
structure Env where
  rand : ℕ → ℝ
  gRandom : ℕ → ℝ
  cout : List String

/-- One call of `G4UniformRand()`: the next engine output, and the advanced engine. -/
def G4UniformRand (env : Env) : ℝ × Env :=
  (env.rand 0, ⟨fun n => env.rand (n + 1), env.gRandom, env.cout⟩)

/-- Appends a line to `std::cout` (the source writes `std::cout << msg << std::endl`). -/
def Env.print (env : Env) (msg : String) : Env :=
  ⟨env.rand, env.gRandom, env.cout ++ [msg]⟩

/-- The Cartesian three-vector `G4ThreeVector`. -/
structure G4ThreeVector where
  x : ℝ
  y : ℝ
  z : ℝ

/-- Squared length, `G4ThreeVector::mag2`. -/
def G4ThreeVector.mag2 (v : G4ThreeVector) : ℝ :=
  v.x * v.x + v.y * v.y + v.z * v.z

/-- Length, `G4ThreeVector::mag`. -/
noncomputable def G4ThreeVector.mag (v : G4ThreeVector) : ℝ :=
  Real.sqrt v.mag2

/-- The constant `M_PI`, taken as the real number π. -/
noncomputable def M_PI : ℝ := Real.pi

/-! ## `GenerateIsotropicDirection` (source lines 75-102) -/

/-- The method `PrimaryGeneratorAction::GenerateIsotropicDirection`.  Both guards print a
message and return `G4ThreeVector(0,0,0)` as an ordinary value without
drawing from the engine; otherwise the first draw gives the azimuth and the
second the cosine of the polar angle. -/
noncomputable def GenerateIsotropicDirection (thetaMin thetaMax phiMin phiMax : ℝ)
    (env : Env) : G4ThreeVector × Env :=
  if thetaMin < 0 ∨ thetaMin > 2 * M_PI ∨ thetaMax < 0 ∨ thetaMax > 2 * M_PI then
    (⟨0, 0, 0⟩, env.print "angles not in the limit ")
  else if thetaMin ≥ thetaMax then
    (⟨0, 0, 0⟩, env.print " theta min has to be smaller than theta max")
  else
    let d1 := G4UniformRand env
    let randomPhi := d1.1 * (phiMax - phiMin) + phiMin
    let cosThetaMin := Real.cos thetaMin
    let cosThetaMax := Real.cos thetaMax
    let d2 := G4UniformRand d1.2
    let randomCosTheta := d2.1 * (cosThetaMin - cosThetaMax) + cosThetaMax
    let randomTheta := Real.arccos randomCosTheta
    let x := Real.sin randomTheta * Real.cos randomPhi
    let y := Real.sin randomTheta * Real.sin randomPhi
    let z := randomCosTheta
    (⟨x, y, z⟩, d2.2)

/-- The bounds accepted by both guards of `GenerateIsotropicDirection`. -/
def ValidAngles (thetaMin thetaMax : ℝ) : Prop :=
  0 ≤ thetaMin ∧ thetaMin ≤ 2 * Real.pi ∧ 0 ≤ thetaMax ∧ thetaMax ≤ 2 * Real.pi ∧
    thetaMin < thetaMax

/-- A sample environment: both engines return `1/2` forever, nothing printed. -/
noncomputable def envHalf : Env := ⟨fun _ => 1 / 2, fun _ => 1 / 2, []⟩

/-- The polar draw `U ↦ z` on the full sphere: the `z` component returned for
the bounds `0, π, 0, 2π` when the second engine output is `U`. -/
noncomputable def fullSphereZ (U : ℝ) : ℝ :=
  (GenerateIsotropicDirection 0 Real.pi 0 (2 * Real.pi) ⟨fun _ => U, fun _ => 0, []⟩).1.z

/-! ## Bin edges (source lines 125-129) -/

/-- The access `std::vector<double>::operator[]` with an `int` index: defined only for
`0 ≤ i < size`. -/
def vecAt {α : Type} (v : List α) (i : Int) : Option α :=
  if i < 0 then none else v[i.toNat]?

/-- The loop `for (int i = 0; i < nBins; i++) binEdges.push_back(energies[i])`
after `n` iterations. -/
def pushEdges {α : Type} (energies : List α) : Nat → Option (List α)
  | 0 => some []
  | n + 1 =>
    match pushEdges energies n with
    | none => none
    | some acc =>
      match vecAt energies (n : Int) with
      | none => none
      | some e => some (acc ++ [e])

/-- The vector `binEdges` as built by source lines 125-129, in the arithmetic of
the number type `α` (exact in an ordered field, rounded in `Double`). -/
def binEdges {α : Type} [Add α] [Sub α] (energies : List α) (nBins : Int) : Option (List α) :=
  match pushEdges energies nBins.toNat with
  | none => none
  | some acc =>
    match vecAt energies (nBins - 1), vecAt energies (nBins - 2) with
    | some last, some prev => some (acc ++ [last + (last - prev)])
    | _, _ => none

/-- The bin edges that the construction code builds from a spectrum table. -/
def edgesOfTable {α : Type} [Add α] [Sub α] (tbl : List (α × α)) : Option (List α) :=
  binEdges (tbl.map Prod.fst) (tbl.length : Int)

/-! ## Reading the spectrum file, `ReadBetaSpectrum` (source lines 104-135) -/

section Spectrum

variable {α : Type} [LinearOrderedField α]

/-- The C locale's `isspace`: space, `\t`, `\n`, `\v`, `\f`, `\r`. -/
def isspace (c : Char) : Bool :=
  c = ' ' || c = '\t' || c = '\n' || c = Char.ofNat 11 || c = Char.ofNat 12 || c = '\r'

/-- A `std::stringstream` as far as `operator>>` observes it: the unread
characters and whether `failbit` is set. -/
structure IStream where
  buf : List Char
  failbit : Bool

/-- Outcome of the library's numeric conversion (`std::num_get`) on input that
starts with a non-space character:

* `value v rest`: a number is read, `v` is its value, `rest` is left unread;
* `outOfRange v rest`: a number is read but its value is not representable;
  the conversion delivers the extreme value `v` (`±DBL_MAX`) and reports
  failure;
* `invalid`: no number starts there. -/
inductive NumGet (α : Type) where
  | value (v : α) (rest : List Char)
  | outOfRange (v : α) (rest : List Char)
  | invalid

/-- One `iss >> x` for a `double` target `x`.  The conversion `numGet` is a
parameter.

* stream already failed: nothing is read, `x` keeps its value;
* only white space left: end of input is reached while skipping it, the
  stream fails and `x` keeps its value;
* a number is read: `x` receives the value;
* a number out of range is read: `x` receives the extreme value and the
  stream fails;
* no number starts there: the stream fails and `0` is stored in `x`. -/
def extractDouble (numGet : List Char → NumGet α) (s : IStream) (x : α) :
    IStream × α :=
  if s.failbit then (s, x)
  else
    match s.buf.dropWhile isspace with
    | [] => (⟨[], true⟩, x)
    | c :: cs =>
      match numGet (c :: cs) with
      | NumGet.value v rest => (⟨rest, false⟩, v)
      | NumGet.outOfRange v rest => (⟨rest, true⟩, v)
      | NumGet.invalid => (⟨c :: cs, true⟩, 0)

/-- The local variables of `ReadBetaSpectrum` that live across iterations of
its `while (std::getline(betaFile, line))` loop. -/
structure ReadState (α : Type) where
  tmpE : α
  tmpW : α
  energies : List α
  weights : List α
  nBins : Int

/-- State at loop entry: `tmpE = 0., tmpW = 0.`, empty vectors, `nBins = 0`. -/
def ReadState.init : ReadState α := ⟨0, 0, [], [], 0⟩

/-- One iteration of the reading loop (source lines 116-122).  `line[0]` of an
empty line is the terminating `\0`, which is not `#`. -/
def readLine (numGet : List Char → NumGet α) (st : ReadState α)
    (line : String) : ReadState α :=
  if line.data.head? = some '#' then st
  else
    let iss : IStream := ⟨line.data, false⟩
    let r1 := extractDouble numGet iss st.tmpE
    let r2 := extractDouble numGet r1.1 st.tmpW
    ⟨r1.2, r2.2, st.energies ++ [r1.2], st.weights ++ [r2.2], st.nBins + 1⟩

/-- The whole reading loop over the lines that `std::getline` delivers. -/
def readLoop (numGet : List Char → NumGet α) (lines : List String) :
    ReadState α :=
  lines.foldl (readLine numGet) ReadState.init

/-- Modelled from the spec: the histogram class `TH1F` of the ROOT library,
which is not under src/.  A histogram with `fNbins` bins keeps its
`fNbins + 1` bin edges in `fXbins` and its contents in `fArray`, where cell
`0` is the underflow cell, cells `1 .. fNbins` are the bins and cell
`fNbins + 1` is the overflow cell. -/
structure TH1F (α : Type) where
  fNbins : Nat
  fXbins : List α
  fArray : List α

/-- Modelled from the spec: the ROOT constructor `TH1F(name, title, nbins, xbins)`
(not under src/): a histogram of `nbins` bins with the first `nbins + 1`
values of `xbins` as edges and all cells empty. -/
def TH1F.new (nbins : Int) (xbins : List α) : TH1F α :=
  ⟨nbins.toNat, xbins.take (nbins.toNat + 1), List.replicate (nbins.toNat + 2) 0⟩

/-- Modelled from the spec: the ROOT method `SetBinContent(bin, content)` (not
under src/): cell `bin` receives `content`; a cell outside the array is left
alone. -/
def TH1F.SetBinContent (h : TH1F α) (bin : Int) (content : α) : TH1F α :=
  if bin < 0 ∨ (h.fArray.length : Int) ≤ bin then h
  else ⟨h.fNbins, h.fXbins, h.fArray.set bin.toNat content⟩

/-- Modelled from the spec: the ROOT method `GetBinContent(bin)` (not under
src/): the content of cell `bin`. -/
def TH1F.GetBinContent (h : TH1F α) (bin : Nat) : α :=
  h.fArray.getD bin 0

/-- Modelled from the spec: the ROOT method `GetBinLowEdge(bin)` (not under
src/) for `1 ≤ bin`: the lower edge of bin `bin`. -/
def TH1F.GetBinLowEdge (h : TH1F α) (bin : Nat) : Option α :=
  h.fXbins[bin - 1]?

/-- The loop `for (int ibin = 0; ibin < nBins; ibin++)
fBetaSpectrum->SetBinContent(ibin+1, weights[ibin])` after `n` iterations. -/
def fillBins (weights : List α) : Nat → TH1F α → Option (TH1F α)
  | 0, h => some h
  | n + 1, h =>
    match fillBins weights n h with
    | none => none
    | some h1 =>
      match vecAt weights (n : Int) with
      | none => none
      | some w => some (h1.SetBinContent ((n : Int) + 1) w)

/-- Source lines 125-134: the histogram built from the vectors read. -/
def buildSpectrum (energies weights : List α) (nBins : Int) : Option (TH1F α) :=
  match binEdges energies nBins with
  | none => none
  | some edges => fillBins weights nBins.toNat (TH1F.new nBins edges)

/-- The method `PrimaryGeneratorAction::ReadBetaSpectrum` on the lines of the file (a
file that cannot be opened delivers no line: the source prints a message and
goes on, its early return being commented out).  The result is the histogram
stored in `fBetaSpectrum`, or `none` when the run indexes a vector out of
range. -/
def ReadBetaSpectrum (numGet : List Char → NumGet α) (lines : List String) :
    Option (TH1F α) :=
  let st := readLoop numGet lines
  buildSpectrum st.energies st.weights st.nBins

/-- The histogram that the construction code builds from a spectrum table
given as `(energy, weight)` pairs. -/
def spectrumOfTable (tbl : List (α × α)) : Option (TH1F α) :=
  buildSpectrum (tbl.map Prod.fst) (tbl.map Prod.snd) (tbl.length : Int)

/-- A line that is not a comment: its first character is not `#`. -/
def isDataLine (line : String) : Bool :=
  decide (line.data.head? ≠ some '#')

/-- The line holds a well-formed `<energy> <weight>` pair with the values `e`
and `w`: after optional white space a number converts to `e`, and after
further white space a second number converts to `w`. -/
def LineReads (numGet : List Char → NumGet α) (line : String) (e w : α) :
    Prop :=
  ∃ r1 r2 : List Char,
    line.data.dropWhile isspace ≠ [] ∧
    numGet (line.data.dropWhile isspace) = NumGet.value e r1 ∧
    r1.dropWhile isspace ≠ [] ∧
    numGet (r1.dropWhile isspace) = NumGet.value w r2

/-! ## Sampling the histogram -/

/-- The contents of bins `1 .. fNbins`, in order. -/
def TH1F.contents (h : TH1F α) : List α :=
  (List.range h.fNbins).map (fun i => h.GetBinContent (i + 1))

/-- Running sums `acc + w₀, acc + w₀ + w₁, ...` of a list of weights. -/
def cumulative : α → List α → List α
  | _, [] => []
  | acc, w :: ws => (acc + w) :: cumulative (acc + w) ws

/-- Index of the first cumulative weight that exceeds `t`: the bin whose
cumulative range contains `t`. -/
def locateBin (t : α) : List α → Option Nat
  | [] => none
  | c :: cs => if t < c then some 0 else (locateBin t cs).map (fun i => i + 1)

/-- Modelled from the spec: the method `TH1::GetRandom` of the ROOT library
(called at source line 178, not under src/), the spec's `Sample()`.  It builds
the cumulative weights, turns the variate `u` of `[0,1)` into a value of
`[0, totalWeight)`, locates the bin whose cumulative range contains it, and
returns the point at fraction `v` of `[lowerEdge, upperEdge)` of that bin.
With total content zero there is nothing to sample (`EmptyDistributionError`):
the result is `none`. -/
def TH1F.GetRandom (h : TH1F α) (u v : α) : Option α :=
  let ws := h.contents
  let total := ws.sum
  if total = 0 then none
  else
    match locateBin (u * total) (cumulative 0 ws) with
    | none => none
    | some i =>
      match h.GetBinLowEdge (i + 1), h.GetBinLowEdge (i + 2) with
      | some lo, some hi => some (lo + v * (hi - lo))
      | _, _ => none

/-! ## A sample numeric conversion -/

/-- Value of a string of decimal digits. -/
def natOfDigits (ds : List Char) : Nat :=
  ds.foldl (fun a d => 10 * a + (d.toNat - 48)) 0

/-- A sample `numGet`: plain decimal numerals `ddd`, `ddd.ddd` with an optional
sign (no exponent, no hexadecimal form, no `inf` or `nan`), read exactly, so
that no value is out of range. -/
def readDecimal (s : List Char) : NumGet α :=
  let sg : Bool × List Char :=
    match s with
    | '-' :: r => (true, r)
    | '+' :: r => (false, r)
    | _ => (false, s)
  let ip := sg.2.span Char.isDigit
  let fp : List Char × List Char :=
    match ip.2 with
    | '.' :: r => r.span Char.isDigit
    | r => ([], r)
  if ip.1 = [] ∧ fp.1 = [] then NumGet.invalid
  else
    let m : α := (natOfDigits ip.1 : α) + (natOfDigits fp.1 : α) / 10 ^ fp.1.length
    NumGet.value (if sg.1 then -m else m) fp.2

end Spectrum

/-! ## Position and orchestration, `GeneratePrimaries` (source lines 140-184) -/

/-- Modelled from the spec: the default arguments of
`GenerateIsotropicDirection`, declared in `PrimaryGeneratorAction.hh` (not
under src/): `thetaMin = 0`, `thetaMax = π`, `phiMin = 0`, `phiMax = 2π`. -/
noncomputable def defaultBounds : ℝ × ℝ × ℝ × ℝ := (0, M_PI, 0, 2 * M_PI)

/-- What `GeneratePrimaries` sets on `fParticleGun`.  The energy is `none` when
the histogram sampler has no defined result. -/
structure G4ParticleGun where
  position : G4ThreeVector
  direction : G4ThreeVector
  energy : Option ℝ

/-- The method `PrimaryGeneratorAction::GeneratePrimaries` (source lines 167-180); `mm` is
the length unit of `G4SystemOfUnits.hh`.  The draws are, in order: azimuth of
the position, radius of the position, then the two draws of
`GenerateIsotropicDirection`; the energy comes from the histogram's own
engine.  The particle-type bookkeeping of lines 142-152 does not touch any of
these values and is left out. -/
noncomputable def GeneratePrimaries (mm : ℝ) (fBetaSpectrum : TH1F ℝ) (env : Env) :
    G4ParticleGun × Env :=
  let d1 := G4UniformRand env
  let randomPhi := d1.1 * 2 * M_PI
  let d2 := G4UniformRand d1.2
  let r := d2.1 * 5 * mm
  let x := r * Real.cos randomPhi
  let y := r * Real.sin randomPhi
  let z := -0.5 * 0.5 * mm
  let pos : G4ThreeVector := ⟨x, y, z⟩
  let dir := GenerateIsotropicDirection defaultBounds.1 defaultBounds.2.1 defaultBounds.2.2.1
    defaultBounds.2.2.2 d2.2
  let randE := fBetaSpectrum.GetRandom (dir.2.gRandom 0) (dir.2.gRandom 1)
  (⟨pos, dir.1, randE⟩, ⟨dir.2.rand, fun n => dir.2.gRandom (n + 2), dir.2.cout⟩)

/-! ## The arithmetic of `double`

The table in `ReadBetaSpectrum` is a `std::vector<double>`, and source line 129
adds and subtracts in `double`: every result is rounded to the nearest
IEEE-754 binary64 value, ties to the even significand.  Values are kept as
exact rationals; the two zeros are one value, which no comparison and no
sum or difference below can tell apart. -/

/-- Nearest integer of a rational, ties to the even integer. -/
def rne (t : ℚ) : ℤ :=
  if t - ⌊t⌋ < 1 / 2 then ⌊t⌋
  else if 1 / 2 < t - ⌊t⌋ then ⌊t⌋ + 1
  else if ⌊t⌋ % 2 = 0 then ⌊t⌋ else ⌊t⌋ + 1

/-- Exponent of the unit in the last place of a magnitude `a`: 53 significant
bits below `2 ^ (⌊log₂ a⌋ + 1)`, and never below the subnormal spacing
`2 ^ (-1074)`. -/
def expo (a : ℚ) : ℤ := max (Int.log 2 a) (-1022) - 52

/-- A magnitude `a ≥ 0` rounded to a multiple of its unit in the last place. -/
def roundMag (a : ℚ) : ℚ := (rne (a / 2 ^ expo a) : ℚ) * 2 ^ expo a

/-- Round to nearest, ties to even, with unbounded exponent range upwards:
sign and rounded magnitude. -/
def roundQ (x : ℚ) : ℚ := if 0 ≤ x then roundMag x else -roundMag (-x)

/-- The values of a `double`: finite numbers, the two infinities, not-a-number. -/
inductive Double where
  | fin (q : ℚ)
  | pinf
  | ninf
  | nan

/-- Rounding of an exact result to a `double`; a rounded magnitude of `2 ^ 1024`
or more overflows to an infinity. -/
def Double.round (x : ℚ) : Double :=
  if (2 : ℚ) ^ 1024 ≤ roundQ x then Double.pinf
  else if roundQ x ≤ -(2 : ℚ) ^ 1024 then Double.ninf
  else Double.fin (roundQ x)

/-- Unary minus of `double`. -/
def Double.neg : Double → Double
  | Double.fin q => Double.fin (-q)
  | Double.pinf => Double.ninf
  | Double.ninf => Double.pinf
  | Double.nan => Double.nan

/-- The operator `+` of `double`. -/
def Double.add : Double → Double → Double
  | Double.fin a, Double.fin b => Double.round (a + b)
  | Double.fin _, Double.pinf => Double.pinf
  | Double.fin _, Double.ninf => Double.ninf
  | Double.pinf, Double.fin _ => Double.pinf
  | Double.pinf, Double.pinf => Double.pinf
  | Double.pinf, Double.ninf => Double.nan
  | Double.ninf, Double.fin _ => Double.ninf
  | Double.ninf, Double.pinf => Double.nan
  | Double.ninf, Double.ninf => Double.ninf
  | Double.nan, _ => Double.nan
  | _, Double.nan => Double.nan

/-- The operator `-` of `double`: the sum with the negated second operand. -/
def Double.sub (a b : Double) : Double := Double.add a (Double.neg b)

instance : Add Double := ⟨Double.add⟩

instance : Sub Double := ⟨Double.sub⟩

/-- The comparison `<` of `double`; false as soon as an operand is not a number. -/
def Double.lt : Double → Double → Prop
  | Double.fin a, Double.fin b => a < b
  | Double.fin _, Double.pinf => True
  | Double.ninf, Double.fin _ => True
  | Double.ninf, Double.pinf => True
  | _, _ => False

/-- The comparison `<=` of `double`; false as soon as an operand is not a number. -/
def Double.le : Double → Double → Prop
  | Double.fin a, Double.fin b => a ≤ b
  | Double.fin _, Double.pinf => True
  | Double.ninf, Double.fin _ => True
  | Double.ninf, Double.pinf => True
  | Double.pinf, Double.pinf => True
  | Double.ninf, Double.ninf => True
  | _, _ => False

/-- A finite member of the model is a value of the type when rounding leaves it
unchanged and it is below the overflow threshold; all other members are values. -/
def Double.IsValue : Double → Prop
  | Double.fin q => roundQ q = q ∧ |q| < 2 ^ 1024
  | _ => True

/-! ## Lemmas on the direction sampler -/

/-- On accepted bounds the sampler takes its last branch. -/
theorem GenerateIsotropicDirection_valid (thetaMin thetaMax phiMin phiMax : ℝ) (env : Env)
    (h : ValidAngles thetaMin thetaMax) :
    GenerateIsotropicDirection thetaMin thetaMax phiMin phiMax env =
      (⟨Real.sin (Real.arccos (env.rand 1 * (Real.cos thetaMin - Real.cos thetaMax)
            + Real.cos thetaMax))
          * Real.cos (env.rand 0 * (phiMax - phiMin) + phiMin),
        Real.sin (Real.arccos (env.rand 1 * (Real.cos thetaMin - Real.cos thetaMax)
            + Real.cos thetaMax))
          * Real.sin (env.rand 0 * (phiMax - phiMin) + phiMin),
        env.rand 1 * (Real.cos thetaMin - Real.cos thetaMax) + Real.cos thetaMax⟩,
       ⟨fun n => env.rand (n + 1 + 1), env.gRandom, env.cout⟩) := by
  obtain ⟨h1, h2, h3, h4, h5⟩ := h
  have hg1 : ¬ (thetaMin < 0 ∨ thetaMin > 2 * M_PI ∨ thetaMax < 0 ∨ thetaMax > 2 * M_PI) := by
    unfold M_PI
    push_neg
    exact ⟨h1, h2, h3, h4⟩
  have hg2 : ¬ (thetaMin ≥ thetaMax) := not_le.mpr h5
  unfold GenerateIsotropicDirection
  rw [if_neg hg1, if_neg hg2]
  rfl

/-- A convex combination of two cosines lies in `[-1, 1]`. -/
theorem cos_mix_bounds (a b u : ℝ) (hu0 : 0 ≤ u) (hu1 : u < 1) :
    -1 ≤ u * (Real.cos a - Real.cos b) + Real.cos b ∧
      u * (Real.cos a - Real.cos b) + Real.cos b ≤ 1 := by
  have ha1 := Real.neg_one_le_cos a
  have ha2 := Real.cos_le_one a
  have hb1 := Real.neg_one_le_cos b
  have hb2 := Real.cos_le_one b
  have e : u * (Real.cos a - Real.cos b) + Real.cos b
      = u * Real.cos a + (1 - u) * Real.cos b := by ring
  rw [e]
  have hv : 0 ≤ 1 - u := by linarith
  constructor
  · nlinarith [mul_le_mul_of_nonneg_left ha1 hu0, mul_le_mul_of_nonneg_left hb1 hv]
  · nlinarith [mul_le_mul_of_nonneg_left ha2 hu0, mul_le_mul_of_nonneg_left hb2 hv]




/-- On rejected bounds the sampler returns the zero vector, prints one of its
two messages and leaves the engine untouched. -/
theorem GenerateIsotropicDirection_invalid (thetaMin thetaMax phiMin phiMax : ℝ) (env : Env)
    (h : ¬ ValidAngles thetaMin thetaMax) :
    (GenerateIsotropicDirection thetaMin thetaMax phiMin phiMax env).1 = ⟨0, 0, 0⟩ ∧
    (GenerateIsotropicDirection thetaMin thetaMax phiMin phiMax env).2.rand = env.rand ∧
    ((GenerateIsotropicDirection thetaMin thetaMax phiMin phiMax env).2.cout
        = env.cout ++ ["angles not in the limit "] ∨
      (GenerateIsotropicDirection thetaMin thetaMax phiMin phiMax env).2.cout
        = env.cout ++ [" theta min has to be smaller than theta max"]) := by
  unfold GenerateIsotropicDirection
  by_cases hg1 : thetaMin < 0 ∨ thetaMin > 2 * M_PI ∨ thetaMax < 0 ∨ thetaMax > 2 * M_PI
  · rw [if_pos hg1]
    exact ⟨rfl, rfl, Or.inl rfl⟩
  · rw [if_neg hg1]
    have hg2 : thetaMin ≥ thetaMax := by
      by_contra hc
      apply h
      unfold M_PI at hg1
      push_neg at hg1 hc
      exact ⟨hg1.1, hg1.2.1, hg1.2.2.1, hg1.2.2.2, hc⟩
    rw [if_pos hg2]
    exact ⟨rfl, rfl, Or.inr rfl⟩

/-- The full-sphere bounds are accepted. -/
theorem validAngles_fullSphere : ValidAngles 0 Real.pi := by
  have := Real.pi_pos
  refine ⟨le_refl _, ?_, ?_, ?_, ?_⟩ <;> linarith

/-- The value of `fullSphereZ`. -/
theorem fullSphereZ_eq (U : ℝ) : fullSphereZ U = 2 * U - 1 := by
  unfold fullSphereZ
  rw [GenerateIsotropicDirection_valid _ _ _ _ _ validAngles_fullSphere]
  simp only [Real.cos_zero, Real.cos_pi]
  ring

/-! ## Claims on the direction sampler and on the position -/

/-- C1: on accepted bounds (`thetaMin`, `thetaMax` in `[0, 2π]`, `thetaMin < thetaMax`)
and engine outputs in `[0,1)`, the returned vector is
`(sin (acos c) cos φ, sin (acos c) sin φ, c)` with
`c = U (cos thetaMin - cos thetaMax) + cos thetaMax`, and it has
`x² + y² + z² = 1`, hence magnitude exactly `1` (whatever the azimuth draw and
the azimuth bounds are). -/
theorem C1_direction_unit (thetaMin thetaMax phiMin phiMax : ℝ) (env : Env)
    (h1 : 0 ≤ thetaMin) (h2 : thetaMin ≤ 2 * Real.pi)
    (h3 : 0 ≤ thetaMax) (h4 : thetaMax ≤ 2 * Real.pi) (h5 : thetaMin < thetaMax)
    (hU : 0 ≤ env.rand 1 ∧ env.rand 1 < 1) :
    (GenerateIsotropicDirection thetaMin thetaMax phiMin phiMax env).1.x
        = Real.sin (Real.arccos
            (env.rand 1 * (Real.cos thetaMin - Real.cos thetaMax) + Real.cos thetaMax))
          * Real.cos (env.rand 0 * (phiMax - phiMin) + phiMin) ∧
    (GenerateIsotropicDirection thetaMin thetaMax phiMin phiMax env).1.y
        = Real.sin (Real.arccos
            (env.rand 1 * (Real.cos thetaMin - Real.cos thetaMax) + Real.cos thetaMax))
          * Real.sin (env.rand 0 * (phiMax - phiMin) + phiMin) ∧
    (GenerateIsotropicDirection thetaMin thetaMax phiMin phiMax env).1.z
        = env.rand 1 * (Real.cos thetaMin - Real.cos thetaMax) + Real.cos thetaMax ∧
    (GenerateIsotropicDirection thetaMin thetaMax phiMin phiMax env).1.x ^ 2
      + (GenerateIsotropicDirection thetaMin thetaMax phiMin phiMax env).1.y ^ 2
      + (GenerateIsotropicDirection thetaMin thetaMax phiMin phiMax env).1.z ^ 2 = 1 ∧
    (GenerateIsotropicDirection thetaMin thetaMax phiMin phiMax env).1.mag = 1 := by
  rw [GenerateIsotropicDirection_valid _ _ _ _ _ ⟨h1, h2, h3, h4, h5⟩]
  obtain ⟨hc1, hc2⟩ := cos_mix_bounds thetaMin thetaMax (env.rand 1) hU.1 hU.2
  set c := env.rand 1 * (Real.cos thetaMin - Real.cos thetaMax) + Real.cos thetaMax with hc
  set phi := env.rand 0 * (phiMax - phiMin) + phiMin with hphi_def
  have hs : Real.sin (Real.arccos c) ^ 2 = 1 - c ^ 2 := by
    rw [Real.sin_arccos]
    apply Real.sq_sqrt
    nlinarith
  have hsum : (Real.sin (Real.arccos c) * Real.cos phi) ^ 2
      + (Real.sin (Real.arccos c) * Real.sin phi) ^ 2 + c ^ 2 = 1 := by
    have hp := Real.sin_sq_add_cos_sq phi
    have e : (Real.sin (Real.arccos c) * Real.cos phi) ^ 2
        + (Real.sin (Real.arccos c) * Real.sin phi) ^ 2 + c ^ 2
        = Real.sin (Real.arccos c) ^ 2 * (Real.sin phi ^ 2 + Real.cos phi ^ 2) + c ^ 2 := by
      ring
    rw [e, hp, hs]
    ring
  refine ⟨rfl, rfl, rfl, hsum, ?_⟩
  unfold G4ThreeVector.mag G4ThreeVector.mag2
  have e2 : (Real.sin (Real.arccos c) * Real.cos phi) * (Real.sin (Real.arccos c) * Real.cos phi)
      + (Real.sin (Real.arccos c) * Real.sin phi) * (Real.sin (Real.arccos c) * Real.sin phi)
      + c * c = 1 := by
    rw [← hsum]
    ring
  simp only [e2, Real.sqrt_one]

/-- Witness of C1: the full sphere with both engine outputs equal to `1/2`. -/
theorem C1_direction_unit_witness :
    (GenerateIsotropicDirection 0 Real.pi 0 (2 * Real.pi) envHalf).1.mag = 1 :=
  (C1_direction_unit 0 Real.pi 0 (2 * Real.pi) envHalf (le_refl 0)
    (by have := Real.pi_pos; linarith) Real.pi_pos.le (by have := Real.pi_pos; linarith)
    Real.pi_pos (by norm_num [envHalf])).2.2.2.2

/-- C2, refuted as stated: for `thetaMin = 3, thetaMax = 1` and for
`thetaMin = 10` the call returns the zero-length vector `(0,0,0)` as an
ordinary value of type `G4ThreeVector`; no error is raised. -/
theorem C2_zero_vector_returned :
    (GenerateIsotropicDirection 3 1 0 (2 * Real.pi) envHalf).1 = ⟨0, 0, 0⟩ ∧
    (GenerateIsotropicDirection 3 1 0 (2 * Real.pi) envHalf).1.mag = 0 ∧
    (GenerateIsotropicDirection 10 11 0 (2 * Real.pi) envHalf).1 = ⟨0, 0, 0⟩ := by
  have hpi := Real.pi_le_four
  have h1 : ¬ ValidAngles 3 1 := by
    rintro ⟨-, -, -, -, h⟩
    norm_num at h
  have h2 : ¬ ValidAngles 10 11 := by
    rintro ⟨-, h, -, -, -⟩
    linarith
  have e1 := (GenerateIsotropicDirection_invalid 3 1 0 (2 * Real.pi) envHalf h1).1
  refine ⟨e1, ?_, (GenerateIsotropicDirection_invalid 10 11 0 (2 * Real.pi) envHalf h2).1⟩
  rw [e1]
  simp [G4ThreeVector.mag, G4ThreeVector.mag2]

/-- C2, amended: whenever the bounds are rejected (an angle outside `[0, 2π]`, or
`thetaMin ≥ thetaMax`) the call returns the zero vector `(0,0,0)` as an
ordinary value, of magnitude `0`, draws nothing from the engine and writes
one of its two messages to `std::cout`. -/
theorem C2_invalid_bounds_zero_vector (thetaMin thetaMax phiMin phiMax : ℝ) (env : Env)
    (h : thetaMin < 0 ∨ 2 * Real.pi < thetaMin ∨ thetaMax < 0 ∨ 2 * Real.pi < thetaMax ∨
      thetaMax ≤ thetaMin) :
    (GenerateIsotropicDirection thetaMin thetaMax phiMin phiMax env).1 = ⟨0, 0, 0⟩ ∧
    (GenerateIsotropicDirection thetaMin thetaMax phiMin phiMax env).1.mag = 0 ∧
    (GenerateIsotropicDirection thetaMin thetaMax phiMin phiMax env).2.rand = env.rand ∧
    ((GenerateIsotropicDirection thetaMin thetaMax phiMin phiMax env).2.cout
        = env.cout ++ ["angles not in the limit "] ∨
      (GenerateIsotropicDirection thetaMin thetaMax phiMin phiMax env).2.cout
        = env.cout ++ [" theta min has to be smaller than theta max"]) := by
  have hv : ¬ ValidAngles thetaMin thetaMax := by
    rintro ⟨a1, a2, a3, a4, a5⟩
    rcases h with h | h | h | h | h <;> linarith
  obtain ⟨e1, e2, e3⟩ := GenerateIsotropicDirection_invalid thetaMin thetaMax phiMin phiMax env hv
  refine ⟨e1, ?_, e2, e3⟩
  rw [e1]
  simp [G4ThreeVector.mag, G4ThreeVector.mag2]

/-- Witness of C2 (amended): `thetaMin = 7`, above `2π`, gives the zero vector. -/
theorem C2_invalid_bounds_zero_vector_witness :
    (GenerateIsotropicDirection 7 8 0 (2 * Real.pi) envHalf).1 = ⟨0, 0, 0⟩ ∧
    (GenerateIsotropicDirection 7 8 0 (2 * Real.pi) envHalf).1.mag = 0 ∧
    (GenerateIsotropicDirection 7 8 0 (2 * Real.pi) envHalf).2.rand = envHalf.rand :=
  have h := C2_invalid_bounds_zero_vector 7 8 0 (2 * Real.pi) envHalf
    (Or.inr (Or.inl (by have := Real.pi_lt_d2; linarith)))
  ⟨h.1, h.2.1, h.2.2.1⟩

/-- C5, refuted as stated: the bounds `thetaMin = π`, `thetaMax = 2π` are accepted,
the draw `U = 1/2` gives `z = 0`, and `cos thetaMax = 1` is not `≤ 0`. -/
theorem C5_cosine_outside_claimed_order :
    ((0 : ℝ) ≤ Real.pi ∧ Real.pi ≤ 2 * Real.pi ∧ (0 : ℝ) ≤ 2 * Real.pi ∧
      2 * Real.pi ≤ 2 * Real.pi ∧ Real.pi < 2 * Real.pi) ∧
    (0 ≤ envHalf.rand 1 ∧ envHalf.rand 1 < 1) ∧
    (GenerateIsotropicDirection Real.pi (2 * Real.pi) 0 (2 * Real.pi) envHalf).1.z = 0 ∧
    ¬ (Real.cos (2 * Real.pi)
        ≤ (GenerateIsotropicDirection Real.pi (2 * Real.pi) 0 (2 * Real.pi) envHalf).1.z ∧
      (GenerateIsotropicDirection Real.pi (2 * Real.pi) 0 (2 * Real.pi) envHalf).1.z
        ≤ Real.cos Real.pi) := by
  have hpi := Real.pi_pos
  have hv : ValidAngles Real.pi (2 * Real.pi) := by
    refine ⟨?_, ?_, ?_, ?_, ?_⟩ <;> linarith
  have hz : (GenerateIsotropicDirection Real.pi (2 * Real.pi) 0 (2 * Real.pi) envHalf).1.z
      = 0 := by
    rw [GenerateIsotropicDirection_valid _ _ _ _ _ hv]
    simp only [Real.cos_pi, Real.cos_two_pi, envHalf]
    norm_num
  refine ⟨hv, by norm_num [envHalf], hz, ?_⟩
  rw [hz, Real.cos_two_pi]
  rintro ⟨h, -⟩
  linarith

/-- C5, amended: on accepted bounds and a draw `U` in `[0,1)` the returned `z` lies
between the two cosines, `min (cos thetaMin) (cos thetaMax) ≤ z ≤
max (cos thetaMin) (cos thetaMax)`; when moreover `thetaMax ≤ π` this is
`cos thetaMax ≤ z ≤ cos thetaMin`. -/
theorem C5_cosine_between_bounds (thetaMin thetaMax phiMin phiMax : ℝ) (env : Env)
    (h1 : 0 ≤ thetaMin) (h2 : thetaMin ≤ 2 * Real.pi)
    (h3 : 0 ≤ thetaMax) (h4 : thetaMax ≤ 2 * Real.pi) (h5 : thetaMin < thetaMax)
    (hU : 0 ≤ env.rand 1 ∧ env.rand 1 < 1) :
    (min (Real.cos thetaMin) (Real.cos thetaMax)
        ≤ (GenerateIsotropicDirection thetaMin thetaMax phiMin phiMax env).1.z ∧
      (GenerateIsotropicDirection thetaMin thetaMax phiMin phiMax env).1.z
        ≤ max (Real.cos thetaMin) (Real.cos thetaMax)) ∧
    (thetaMax ≤ Real.pi →
      Real.cos thetaMax
        ≤ (GenerateIsotropicDirection thetaMin thetaMax phiMin phiMax env).1.z ∧
      (GenerateIsotropicDirection thetaMin thetaMax phiMin phiMax env).1.z
        ≤ Real.cos thetaMin) := by
  rw [GenerateIsotropicDirection_valid _ _ _ _ _ ⟨h1, h2, h3, h4, h5⟩]
  obtain ⟨hu0, hu1⟩ := hU
  have hv : 0 ≤ 1 - env.rand 1 := by linarith
  have e : env.rand 1 * (Real.cos thetaMin - Real.cos thetaMax) + Real.cos thetaMax
      = env.rand 1 * Real.cos thetaMin + (1 - env.rand 1) * Real.cos thetaMax := by ring
  have hmin1 := min_le_left (Real.cos thetaMin) (Real.cos thetaMax)
  have hmin2 := min_le_right (Real.cos thetaMin) (Real.cos thetaMax)
  have hmax1 := le_max_left (Real.cos thetaMin) (Real.cos thetaMax)
  have hmax2 := le_max_right (Real.cos thetaMin) (Real.cos thetaMax)
  refine ⟨⟨?_, ?_⟩, ?_⟩
  · show _ ≤ env.rand 1 * (Real.cos thetaMin - Real.cos thetaMax) + Real.cos thetaMax
    rw [e]
    nlinarith [mul_le_mul_of_nonneg_left hmin1 hu0, mul_le_mul_of_nonneg_left hmin2 hv]
  · show env.rand 1 * (Real.cos thetaMin - Real.cos thetaMax) + Real.cos thetaMax ≤ _
    rw [e]
    nlinarith [mul_le_mul_of_nonneg_left hmax1 hu0, mul_le_mul_of_nonneg_left hmax2 hv]
  · intro hpi
    have hcos : Real.cos thetaMax ≤ Real.cos thetaMin :=
      Real.cos_le_cos_of_nonneg_of_le_pi h1 hpi h5.le
    constructor
    · show _ ≤ env.rand 1 * (Real.cos thetaMin - Real.cos thetaMax) + Real.cos thetaMax
      nlinarith [mul_nonneg hu0 (sub_nonneg.mpr hcos)]
    · show env.rand 1 * (Real.cos thetaMin - Real.cos thetaMax) + Real.cos thetaMax ≤ _
      nlinarith [mul_nonneg hv (sub_nonneg.mpr hcos)]

/-- Witness of C5 (amended): the full sphere with `U = 1/2`. -/
theorem C5_cosine_between_bounds_witness :
    Real.cos Real.pi ≤ (GenerateIsotropicDirection 0 Real.pi 0 (2 * Real.pi) envHalf).1.z ∧
    (GenerateIsotropicDirection 0 Real.pi 0 (2 * Real.pi) envHalf).1.z ≤ Real.cos 0 :=
  (C5_cosine_between_bounds 0 Real.pi 0 (2 * Real.pi) envHalf (le_refl 0)
    (by have := Real.pi_pos; linarith) Real.pi_pos.le (by have := Real.pi_pos; linarith)
    Real.pi_pos (by norm_num [envHalf])).2 (le_refl _)

/-- The direction drawn by `GeneratePrimaries` is the one of the full sphere,
drawn from the third and fourth engine outputs. -/
theorem GeneratePrimaries_direction (mm : ℝ) (h : TH1F ℝ) (env : Env) :
    (GeneratePrimaries mm h env).1.direction
      = (GenerateIsotropicDirection 0 Real.pi 0 (2 * Real.pi)
          ⟨fun n => env.rand (n + 1 + 1), env.gRandom, env.cout⟩).1 := rfl

/-- The energy set by `GeneratePrimaries` is the sampler's result for the first
two outputs of the histogram's engine. -/
theorem GeneratePrimaries_energy (mm : ℝ) (h : TH1F ℝ) (env : Env) :
    (GeneratePrimaries mm h env).1.energy = h.GetRandom (env.gRandom 0) (env.gRandom 1) := by
  have e : (GeneratePrimaries mm h env).1.energy
      = h.GetRandom
          ((GenerateIsotropicDirection 0 Real.pi 0 (2 * Real.pi)
            ⟨fun n => env.rand (n + 1 + 1), env.gRandom, env.cout⟩).2.gRandom 0)
          ((GenerateIsotropicDirection 0 Real.pi 0 (2 * Real.pi)
            ⟨fun n => env.rand (n + 1 + 1), env.gRandom, env.cout⟩).2.gRandom 1) := rfl
  rw [e, GenerateIsotropicDirection_valid _ _ _ _ _ validAngles_fullSphere]

/-- The law of `2 U - 1` for `U` uniform on `[0,1)` is the normalised length
measure on `[-1,1)`. -/
theorem map_affine_uniform :
    MeasureTheory.Measure.map (fun U : ℝ => 2 * U - 1)
        (MeasureTheory.volume.restrict (Set.Ico (0 : ℝ) 1))
      = (2⁻¹ : ENNReal) • MeasureTheory.volume.restrict (Set.Ico (-1 : ℝ) 1) := by
  have hf : Measurable (fun U : ℝ => 2 * U - 1) := by fun_prop
  have hpre : Set.preimage (fun U : ℝ => 2 * U - 1) (Set.Ico (-1 : ℝ) 1)
      = Set.Ico (0 : ℝ) 1 := by
    ext U
    simp only [Set.mem_preimage, Set.mem_Ico]
    constructor
    · rintro ⟨a, b⟩
      constructor <;> linarith
    · rintro ⟨a, b⟩
      constructor <;> linarith
  have hmap : MeasureTheory.Measure.map (fun U : ℝ => 2 * U - 1) MeasureTheory.volume
      = (2⁻¹ : ENNReal) • MeasureTheory.volume := by
    have h1 : (fun U : ℝ => 2 * U - 1) = (fun x => x + (-1)) ∘ (fun U : ℝ => 2 * U) := by
      funext U
      simp [sub_eq_add_neg]
    rw [h1, ← MeasureTheory.Measure.map_map (measurable_add_const _) (measurable_const_mul _),
      Real.map_volume_mul_left (by norm_num : (2 : ℝ) ≠ 0), MeasureTheory.Measure.map_smul,
      (MeasureTheory.measurePreserving_add_right MeasureTheory.volume (-1 : ℝ)).map_eq]
    congr 1
    rw [abs_of_pos (by norm_num : (0 : ℝ) < 2⁻¹), ENNReal.ofReal_inv_of_pos (by norm_num)]
    simp
  rw [← hpre, ← MeasureTheory.Measure.restrict_map hf measurableSet_Ico, hmap,
    MeasureTheory.Measure.restrict_smul]

/-- C6: with the full-sphere bounds `0, π, 0, 2π` the returned `z` is `2 U - 1`
for the polar draw `U` (the second engine output of the call, the fourth of
`GeneratePrimaries`); `U ↦ z` maps `[0,1)` one-to-one onto `[-1,1)`, the draws
with `a ≤ z ≤ b` are those with `(a+1)/2 ≤ U ≤ (b+1)/2`, and the law of `z`
for `U` uniform on `[0,1)` is the uniform law on `[-1,1)`: half the length
measure there. -/
theorem C6_fullSphere_z_uniform :
    (∀ env : Env,
      (GenerateIsotropicDirection 0 Real.pi 0 (2 * Real.pi) env).1.z = 2 * env.rand 1 - 1) ∧
    (∀ (mm : ℝ) (h : TH1F ℝ) (env : Env),
      (GeneratePrimaries mm h env).1.direction.z = 2 * env.rand 3 - 1) ∧
    (∀ U : ℝ, fullSphereZ U = 2 * U - 1) ∧
    Set.BijOn fullSphereZ (Set.Ico 0 1) (Set.Ico (-1) 1) ∧
    (∀ a b U : ℝ, (a ≤ fullSphereZ U ∧ fullSphereZ U ≤ b) ↔
      ((a + 1) / 2 ≤ U ∧ U ≤ (b + 1) / 2)) ∧
    MeasureTheory.Measure.map fullSphereZ (MeasureTheory.volume.restrict (Set.Ico (0 : ℝ) 1))
      = (2⁻¹ : ENNReal) • MeasureTheory.volume.restrict (Set.Ico (-1 : ℝ) 1) := by
  have hz : ∀ env : Env,
      (GenerateIsotropicDirection 0 Real.pi 0 (2 * Real.pi) env).1.z = 2 * env.rand 1 - 1 := by
    intro env
    rw [GenerateIsotropicDirection_valid _ _ _ _ _ validAngles_fullSphere]
    simp only [Real.cos_zero, Real.cos_pi]
    ring
  have hfun : fullSphereZ = fun U : ℝ => 2 * U - 1 := funext fullSphereZ_eq
  refine ⟨hz, ?_, fullSphereZ_eq, ?_, ?_, ?_⟩
  · intro mm h env
    rw [GeneratePrimaries_direction, hz]
  · rw [hfun]
    refine ⟨?_, ?_, ?_⟩
    · intro U hU
      simp only [Set.mem_Ico] at hU ⊢
      constructor <;> linarith [hU.1, hU.2]
    · intro U _ V _ hUV
      simp only at hUV
      linarith
    · intro z hz'
      simp only [Set.mem_Ico] at hz'
      refine ⟨(z + 1) / 2, ?_, ?_⟩
      · simp only [Set.mem_Ico]
        constructor <;> linarith [hz'.1, hz'.2]
      · simp only
        ring
  · intro a b U
    rw [fullSphereZ_eq]
    constructor
    · rintro ⟨h1, h2⟩
      constructor <;> linarith
    · rintro ⟨h1, h2⟩
      constructor <;> linarith
  · rw [hfun]
    exact map_affine_uniform

/-- C7: for a radius draw in `[0,1)` and any azimuth draw the position set by
`GeneratePrimaries` has `x² + y² ≤ R²` with `R = 5 mm`, and its `z` is
`-0.25 mm`, the same for every draw. -/
theorem C7_position_in_disk (mm : ℝ) (h : TH1F ℝ) (env : Env)
    (hr : 0 ≤ env.rand 1 ∧ env.rand 1 < 1) :
    (GeneratePrimaries mm h env).1.position.x ^ 2
        + (GeneratePrimaries mm h env).1.position.y ^ 2 ≤ (5 * mm) ^ 2 ∧
    (GeneratePrimaries mm h env).1.position.z = -0.25 * mm ∧
    (∀ env1 : Env, (GeneratePrimaries mm h env1).1.position.z
        = (GeneratePrimaries mm h env).1.position.z) := by
  show (env.rand 1 * 5 * mm * Real.cos (env.rand 0 * 2 * M_PI)) ^ 2
      + (env.rand 1 * 5 * mm * Real.sin (env.rand 0 * 2 * M_PI)) ^ 2 ≤ (5 * mm) ^ 2 ∧
    (-0.5 * 0.5 * mm : ℝ) = -0.25 * mm ∧
    (∀ env1 : Env, (GeneratePrimaries mm h env1).1.position.z = (-0.5 * 0.5 * mm : ℝ))
  refine ⟨?_, by norm_num, fun _ => rfl⟩
  have hp := Real.sin_sq_add_cos_sq (env.rand 0 * 2 * M_PI)
  have e : (env.rand 1 * 5 * mm * Real.cos (env.rand 0 * 2 * M_PI)) ^ 2
      + (env.rand 1 * 5 * mm * Real.sin (env.rand 0 * 2 * M_PI)) ^ 2
      = env.rand 1 ^ 2 * (5 * mm) ^ 2
        * (Real.sin (env.rand 0 * 2 * M_PI) ^ 2 + Real.cos (env.rand 0 * 2 * M_PI) ^ 2) := by
    ring
  rw [e, hp, mul_one]
  have hu : env.rand 1 ^ 2 ≤ 1 := by nlinarith [hr.1, hr.2]
  nlinarith [sq_nonneg (5 * mm)]

/-- Witness of C7: both engines return `1/2`, unit `mm = 1`, an empty histogram. -/
theorem C7_position_in_disk_witness :
    (GeneratePrimaries 1 ⟨0, [], []⟩ envHalf).1.position.z = -0.25 * 1 :=
  (C7_position_in_disk 1 ⟨0, [], []⟩ envHalf (by norm_num [envHalf])).2.1

/-! ## Lemmas on the construction of the histogram -/

/-- Indexing with a non-negative `int` is list lookup. -/
theorem vecAt_natCast {α : Type} (v : List α) (n : Nat) : vecAt v (n : Int) = v[n]? := by
  unfold vecAt
  have h : ¬ ((n : Int) < 0) := by omega
  rw [if_neg h, Int.toNat_ofNat]

/-- The copy loop yields the first `n` energies as long as they exist. -/
theorem pushEdges_take {α : Type} (energies : List α) (n : Nat) (hn : n ≤ energies.length) :
    pushEdges energies n = some (energies.take n) := by
  induction n with
  | zero => simp [pushEdges]
  | succ k ih =>
    have hk : k < energies.length := by omega
    rw [pushEdges, ih (by omega), vecAt_natCast, List.getElem?_eq_getElem hk]
    simp only [List.take_succ, List.getElem?_eq_getElem hk, Option.toList_some]

section SpectrumLemmas

variable {α : Type} [LinearOrderedField α]

/-- Closed form of the bin edges for at least two energies. -/
theorem binEdges_eq (energies : List α) (hN : 2 ≤ energies.length) :
    binEdges energies (energies.length : Int)
      = some (energies ++ [energies.getD (energies.length - 1) 0
          + (energies.getD (energies.length - 1) 0
            - energies.getD (energies.length - 2) 0)]) := by
  have h1 : ((energies.length : Int) - 1) = ((energies.length - 1 : Nat) : Int) := by omega
  have h2 : ((energies.length : Int) - 2) = ((energies.length - 2 : Nat) : Int) := by omega
  have l1 : energies.length - 1 < energies.length := by omega
  have l2 : energies.length - 2 < energies.length := by omega
  unfold binEdges
  rw [Int.toNat_ofNat, pushEdges_take energies _ (le_refl _), h1, h2, vecAt_natCast,
    vecAt_natCast, List.getElem?_eq_getElem l1, List.getElem?_eq_getElem l2, List.take_length,
    List.getD_eq_getElem _ _ l1, List.getD_eq_getElem _ _ l2]

/-- The filling loop after `n` iterations on an empty histogram with `m + 1`
cells: cells `1 .. n` hold the first `n` weights. -/
theorem fillBins_replicate (weights : List α) (N : Nat) (X : List α) (m n : Nat)
    (hn : n ≤ weights.length) (hm : n < m) :
    fillBins weights n ⟨N, X, List.replicate (m + 1) 0⟩
      = some ⟨N, X, 0 :: (weights.take n ++ List.replicate (m - n) 0)⟩ := by
  induction n with
  | zero => simp [fillBins, List.replicate_succ]
  | succ k ih =>
    have hk : k < weights.length := by omega
    rw [fillBins, ih (by omega) (by omega), vecAt_natCast, List.getElem?_eq_getElem hk]
    simp only [TH1F.SetBinContent]
    have hlen : ¬ ((k : Int) + 1 < 0 ∨
        (((0 : α) :: (List.take k weights ++ List.replicate (m - k) 0)).length : Int)
          ≤ (k : Int) + 1) := by
      simp only [List.length_cons, List.length_append, List.length_take,
        List.length_replicate, not_or, not_lt, not_le]
      rw [min_eq_left (by omega)]
      constructor <;> omega
    rw [if_neg hlen]
    have ht : ((k : Int) + 1).toNat = k + 1 := by omega
    have hrep : List.replicate (m - k) (0 : α) = 0 :: List.replicate (m - (k + 1)) 0 := by
      have : m - k = (m - (k + 1)) + 1 := by omega
      rw [this, List.replicate_succ]
    have hlk : (List.take k weights).length = k := by
      rw [List.length_take, min_eq_left (by omega)]
    rw [ht, List.set_cons_succ, hrep,
      List.set_append_right _ _ (by rw [hlk]), hlk, Nat.sub_self, List.set_cons_zero,
      List.take_succ, List.getElem?_eq_getElem hk, Option.toList_some, List.append_assoc,
      List.singleton_append]

/-- Closed form of the histogram built from `N ≥ 2` energies and `N` weights:
edges are the energies followed by the extrapolated edge, cells are
underflow `0`, the weights, overflow `0`. -/
theorem buildSpectrum_eq (energies weights : List α) (hN : 2 ≤ energies.length)
    (hw : weights.length = energies.length) :
    buildSpectrum energies weights (energies.length : Int)
      = some ⟨energies.length,
          energies ++ [energies.getD (energies.length - 1) 0
            + (energies.getD (energies.length - 1) 0
              - energies.getD (energies.length - 2) 0)],
          0 :: (weights ++ [0])⟩ := by
  unfold buildSpectrum
  rw [binEdges_eq energies hN]
  simp only [TH1F.new, Int.toNat_ofNat]
  rw [fillBins_replicate weights _ _ (energies.length + 1) energies.length (by omega) (by omega)]
  have e1 : energies.length + 1 - energies.length = 1 := by omega
  have e2 : List.take energies.length weights = weights := by
    rw [← hw, List.take_length]
  rw [e1, e2]
  congr 2
  apply List.take_of_length_le
  simp

/-- A successful extraction stores the converted value and leaves the rest. -/
theorem extractDouble_ok (numGet : List Char → NumGet α) (buf rest : List Char)
    (x v : α) (h1 : buf.dropWhile isspace ≠ [])
    (h2 : numGet (buf.dropWhile isspace) = NumGet.value v rest) :
    extractDouble numGet ⟨buf, false⟩ x = (⟨rest, false⟩, v) := by
  unfold extractDouble
  simp only [Bool.false_eq_true, if_false]
  cases hd : buf.dropWhile isspace with
  | nil => exact absurd hd h1
  | cons c cs =>
    rw [hd] at h2
    simp only [h2]

/-- A comment line leaves the loop state unchanged. -/
theorem readLine_comment (numGet : List Char → NumGet α) (st : ReadState α)
    (line : String) (h : isDataLine line = false) : readLine numGet st line = st := by
  unfold isDataLine at h
  have h1 : line.data.head? = some '#' := by
    by_contra hc
    simp [hc] at h
  unfold readLine
  rw [if_pos h1]

/-- A well-formed data line appends its two values and counts one bin. -/
theorem readLine_data (numGet : List Char → NumGet α) (st : ReadState α)
    (line : String) (e w : α) (h : isDataLine line = true) (hl : LineReads numGet line e w) :
    readLine numGet st line
      = ⟨e, w, st.energies ++ [e], st.weights ++ [w], st.nBins + 1⟩ := by
  unfold isDataLine at h
  have h1 : ¬ (line.data.head? = some '#') := by
    simpa using h
  obtain ⟨r1, r2, a1, a2, a3, a4⟩ := hl
  unfold readLine
  rw [if_neg h1]
  simp only [extractDouble_ok numGet line.data r1 st.tmpE e a1 a2,
    extractDouble_ok numGet r1 r2 st.tmpW w a3 a4]

/-- The reading loop started in any state: comment lines are skipped and every
data line contributes its pair, in file order. -/
theorem foldl_readLine (numGet : List Char → NumGet α) (lines : List String) :
    ∀ (tbl : List (α × α)) (st : ReadState α),
      List.Forall₂ (fun l p => LineReads numGet l p.1 p.2) (lines.filter isDataLine) tbl →
      (lines.foldl (readLine numGet) st).energies = st.energies ++ tbl.map Prod.fst ∧
      (lines.foldl (readLine numGet) st).weights = st.weights ++ tbl.map Prod.snd ∧
      (lines.foldl (readLine numGet) st).nBins = st.nBins + (tbl.length : Int) := by
  induction lines with
  | nil =>
    intro tbl st h
    simp only [List.filter_nil, List.forall₂_nil_left_iff] at h
    subst h
    simp
  | cons l ls ih =>
    intro tbl st h
    rw [List.foldl_cons]
    cases hd : isDataLine l with
    | false =>
      rw [List.filter_cons_of_neg (by simp [hd])] at h
      rw [readLine_comment numGet st l hd]
      exact ih tbl st h
    | true =>
      rw [List.filter_cons_of_pos hd] at h
      cases h with
      | cons hp hrest =>
        rename_i p ps
        rw [readLine_data numGet st l p.1 p.2 hd hp]
        obtain ⟨i1, i2, i3⟩ := ih ps _ hrest
        rw [i1, i2, i3]
        simp only [List.map_cons, List.length_cons, List.append_assoc, List.singleton_append,
          Nat.cast_add, Nat.cast_one]
        refine ⟨trivial, trivial, ?_⟩
        ring

/-- On a file whose data lines hold the pairs of `tbl`, `ReadBetaSpectrum`
builds the histogram of `tbl`. -/
theorem ReadBetaSpectrum_eq_table (numGet : List Char → NumGet α)
    (lines : List String) (tbl : List (α × α))
    (h : List.Forall₂ (fun l p => LineReads numGet l p.1 p.2) (lines.filter isDataLine) tbl) :
    ReadBetaSpectrum numGet lines = spectrumOfTable tbl := by
  obtain ⟨i1, i2, i3⟩ := foldl_readLine numGet lines tbl ReadState.init h
  have j1 : (readLoop numGet lines).energies = tbl.map Prod.fst := by
    unfold readLoop
    rw [i1]
    rfl
  have j2 : (readLoop numGet lines).weights = tbl.map Prod.snd := by
    unfold readLoop
    rw [i2]
    rfl
  have j3 : (readLoop numGet lines).nBins = (tbl.length : Int) := by
    unfold readLoop
    rw [i3]
    exact zero_add _
  unfold ReadBetaSpectrum spectrumOfTable
  simp only [j1, j2, j3]

/-! ## Lemmas on the order of the bin edges -/

/-- Every energy of a strictly increasing table lies below the extrapolated edge. -/
theorem lt_extrapolated (energies : List α) (hN : 2 ≤ energies.length)
    (hs : energies.Pairwise (fun a b => a < b)) :
    ∀ a ∈ energies, a < energies.getD (energies.length - 1) 0
      + (energies.getD (energies.length - 1) 0 - energies.getD (energies.length - 2) 0) := by
  have l1 : energies.length - 1 < energies.length := by omega
  have l2 : energies.length - 2 < energies.length := by omega
  rw [List.getD_eq_getElem _ _ l1, List.getD_eq_getElem _ _ l2]
  have hp := List.pairwise_iff_getElem.mp hs
  have hlast : energies[energies.length - 2] < energies[energies.length - 1] :=
    hp _ _ l2 l1 (by omega)
  intro a ha
  obtain ⟨i, hi, rfl⟩ := List.getElem_of_mem ha
  by_cases hlt : i < energies.length - 1
  · have := hp i (energies.length - 1) hi l1 hlt
    linarith
  · have hi1 : i = energies.length - 1 := by omega
    subst hi1
    linarith

/-- The edges of a strictly increasing table are strictly increasing. -/
theorem edges_pairwise (energies : List α) (hN : 2 ≤ energies.length)
    (hs : energies.Pairwise (fun a b => a < b)) :
    (energies ++ [energies.getD (energies.length - 1) 0
      + (energies.getD (energies.length - 1) 0
        - energies.getD (energies.length - 2) 0)]).Pairwise (fun a b => a < b) := by
  rw [List.pairwise_append]
  refine ⟨hs, List.pairwise_singleton _ _, ?_⟩
  intro a ha b hb
  rw [List.mem_singleton] at hb
  rw [hb]
  exact lt_extrapolated energies hN hs a ha

/-! ## Lemmas on the sampler -/

/-- The last running sum is the total: it occurs in the cumulative list. -/
theorem sum_mem_cumulative (ws : List α) : ∀ acc : α, ws ≠ [] →
    acc + ws.sum ∈ cumulative acc ws := by
  induction ws with
  | nil => intro acc h; exact absurd rfl h
  | cons w rest ih =>
    intro acc _
    rw [cumulative, List.sum_cons, ← add_assoc]
    by_cases hr : rest = []
    · subst hr
      simp [cumulative]
    · exact List.mem_cons_of_mem _ (ih (acc + w) hr)

/-- The cumulative list has one entry per weight. -/
theorem length_cumulative (ws : List α) : ∀ acc : α, (cumulative acc ws).length = ws.length := by
  induction ws with
  | nil => intro acc; rfl
  | cons w rest ih =>
    intro acc
    rw [cumulative, List.length_cons, List.length_cons, ih]

/-- When some cumulative weight exceeds `t`, a bin is located, inside the list. -/
theorem locateBin_some (t : α) (cs : List α) (h : ∃ c ∈ cs, t < c) :
    ∃ i, locateBin t cs = some i ∧ i < cs.length := by
  induction cs with
  | nil =>
    obtain ⟨c, hc, _⟩ := h
    exact absurd hc (List.not_mem_nil c)
  | cons c rest ih =>
    unfold locateBin
    by_cases hc : t < c
    · rw [if_pos hc]
      exact ⟨0, rfl, Nat.succ_pos _⟩
    · rw [if_neg hc]
      obtain ⟨d, hd, htd⟩ := h
      have hd1 : d ∈ rest := by
        rcases List.mem_cons.mp hd with e | e
        · rw [e] at htd
          exact absurd htd hc
        · exact e
      obtain ⟨i, hi, hlt⟩ := ih ⟨d, hd1, htd⟩
      refine ⟨i + 1, ?_, ?_⟩
      · rw [hi]
        rfl
      · rw [List.length_cons]
        omega

/-- The bins of a histogram whose cells are underflow, `ws`, overflow hold `ws`. -/
theorem contents_eq (X ws : List α) :
    TH1F.contents (⟨ws.length, X, 0 :: (ws ++ [0])⟩ : TH1F α) = ws := by
  unfold TH1F.contents
  apply List.ext_getElem
  · simp
  · intro i h1 h2
    simp only [List.getElem_map, List.getElem_range, TH1F.GetBinContent]
    rw [List.getD_eq_getElem?_getD, List.getElem?_cons_succ, List.getElem?_append_left h2,
      List.getElem?_eq_getElem h2]
    rfl

/-- The sampler on a histogram with strictly increasing edges and positive
total content returns a value between the first and the last edge. -/
theorem GetRandom_in_range (edges ws : List α) (u v : α)
    (hlen : edges.length = ws.length + 1) (hws : ws ≠ [])
    (hs : edges.Pairwise (fun a b => a < b)) (htot : 0 < ws.sum)
    (hu : u < 1) (hv0 : 0 ≤ v) (hv1 : v ≤ 1) :
    ∃ e lo hi, (⟨ws.length, edges, 0 :: (ws ++ [0])⟩ : TH1F α).GetRandom u v = some e ∧
      edges[0]? = some lo ∧ edges[ws.length]? = some hi ∧ lo ≤ e ∧ e ≤ hi := by
  have hp := List.pairwise_iff_getElem.mp hs
  have hlt : u * ws.sum < 0 + ws.sum := by
    rw [zero_add]
    nlinarith
  obtain ⟨i, hi, hil⟩ := locateBin_some (u * ws.sum) (cumulative 0 ws)
    ⟨0 + ws.sum, sum_mem_cumulative ws 0 hws, hlt⟩
  rw [length_cumulative] at hil
  have b0 : 0 < edges.length := by omega
  have bi : i < edges.length := by omega
  have bi1 : i + 1 < edges.length := by omega
  have bN : ws.length < edges.length := by omega
  have h0i : edges[0] ≤ edges[i] := by
    rcases Nat.eq_zero_or_pos i with hz | hpos
    · subst hz
      exact le_refl _
    · exact (hp 0 i b0 bi hpos).le
  have hii : edges[i] < edges[i + 1] := hp i (i + 1) bi bi1 (by omega)
  have hiN : edges[i + 1] ≤ edges[ws.length] := by
    rcases Nat.lt_or_ge (i + 1) ws.length with hl | hg
    · exact (hp (i + 1) ws.length bi1 bN hl).le
    · have : i + 1 = ws.length := by omega
      simp only [this, le_refl]
  refine ⟨edges[i] + v * (edges[i + 1] - edges[i]), edges[0], edges[ws.length], ?_,
    List.getElem?_eq_getElem b0, List.getElem?_eq_getElem bN, ?_, ?_⟩
  · unfold TH1F.GetRandom
    simp only [contents_eq]
    rw [if_neg (ne_of_gt htot), hi]
    simp only [TH1F.GetBinLowEdge, Nat.add_sub_cancel]
    have e2 : i + 2 - 1 = i + 1 := by omega
    rw [e2, List.getElem?_eq_getElem bi, List.getElem?_eq_getElem bi1]
  · nlinarith [mul_nonneg hv0 (sub_nonneg.mpr hii.le)]
  · have h1 : v * (edges[i + 1] - edges[i]) ≤ 1 * (edges[i + 1] - edges[i]) :=
      mul_le_mul_of_nonneg_right hv1 (sub_nonneg.mpr hii.le)
    linarith

/-- Closed form of the edges built from a table with at least two entries. -/
theorem edgesOfTable_eq (tbl : List (α × α)) (hN : 2 ≤ tbl.length) :
    edgesOfTable tbl
      = some (tbl.map Prod.fst ++ [(tbl.map Prod.fst).getD (tbl.length - 1) 0
          + ((tbl.map Prod.fst).getD (tbl.length - 1) 0
            - (tbl.map Prod.fst).getD (tbl.length - 2) 0)]) := by
  have hl : (tbl.map Prod.fst).length = tbl.length := List.length_map _ _
  have h := binEdges_eq (tbl.map Prod.fst) (by omega)
  rw [hl] at h
  exact h

/-- Closed form of the histogram built from a table with at least two entries. -/
theorem spectrumOfTable_eq (tbl : List (α × α)) (hN : 2 ≤ tbl.length) :
    spectrumOfTable tbl
      = some ⟨tbl.length,
          tbl.map Prod.fst ++ [(tbl.map Prod.fst).getD (tbl.length - 1) 0
            + ((tbl.map Prod.fst).getD (tbl.length - 1) 0
              - (tbl.map Prod.fst).getD (tbl.length - 2) 0)],
          0 :: (tbl.map Prod.snd ++ [0])⟩ := by
  have hl : (tbl.map Prod.fst).length = tbl.length := List.length_map _ _
  have h := buildSpectrum_eq (tbl.map Prod.fst) (tbl.map Prod.snd) (by omega) (by simp)
  rw [hl] at h
  exact h

/-- C3: for a table with `N ≥ 2` entries the bin-edge list has `N + 1` elements,
`edge[i] = energy[i]` for `i < N`, and
`edge[N] = energy[N-1] + (energy[N-1] - energy[N-2])`; these are the edges of
the histogram built; for the table `[(1,5), (2,3), (3,2)]` the edges are
`[1, 2, 3, 4]`. -/
theorem C3_bin_edges (tbl : List (α × α)) (hN : 2 ≤ tbl.length) :
    (∃ edges : List α, edgesOfTable tbl = some edges ∧
      edges.length = tbl.length + 1 ∧
      (∀ (i : Nat) (hi : i < tbl.length), edges[i]? = some (tbl[i]).1) ∧
      (∀ eLast ePrev : α, (tbl.map Prod.fst)[tbl.length - 1]? = some eLast →
        (tbl.map Prod.fst)[tbl.length - 2]? = some ePrev →
        edges[tbl.length]? = some (eLast + (eLast - ePrev))) ∧
      (∃ h : TH1F α, spectrumOfTable tbl = some h ∧ h.fXbins = edges)) ∧
    edgesOfTable [((1 : α), (5 : α)), (2, 3), (3, 2)] = some [1, 2, 3, 4] := by
  have hl : (tbl.map Prod.fst).length = tbl.length := List.length_map _ _
  constructor
  · refine ⟨_, edgesOfTable_eq tbl hN, ?_, ?_, ?_, ⟨_, spectrumOfTable_eq tbl hN, rfl⟩⟩
    · rw [List.length_append, hl, List.length_singleton]
    · intro i hi
      rw [List.getElem?_append_left (by rw [hl]; exact hi),
        List.getElem?_eq_getElem (by rw [hl]; exact hi), List.getElem_map]
    · intro eLast ePrev h1 h2
      have l1 : tbl.length - 1 < (tbl.map Prod.fst).length := by omega
      have l2 : tbl.length - 2 < (tbl.map Prod.fst).length := by omega
      rw [List.getElem?_eq_getElem l1] at h1
      rw [List.getElem?_eq_getElem l2] at h2
      rw [List.getElem?_append_right (by rw [hl]), hl, Nat.sub_self,
        List.getD_eq_getElem _ _ l1, List.getD_eq_getElem _ _ l2,
        Option.some.inj h1, Option.some.inj h2]
      rfl
  · rw [edgesOfTable_eq _ (by simp)]
    norm_num

/-- Witness of C3: the table `[(1,5), (2,3), (3,2)]` over the rationals has four
edges, the last one being `4`. -/
theorem C3_bin_edges_witness :
    ∃ edges : List ℚ, edgesOfTable [((1 : ℚ), (5 : ℚ)), (2, 3), (3, 2)] = some edges ∧
      edges.length = 4 ∧ edges[0]? = some 1 ∧ edges[3]? = some 4 := by
  obtain ⟨edges, h1, h2, h3, h4, _⟩ :=
    (C3_bin_edges [((1 : ℚ), (5 : ℚ)), (2, 3), (3, 2)] (by decide)).1
  refine ⟨edges, h1, h2, h3 0 (by decide), ?_⟩
  have h := h4 3 2 (by simp) (by simp)
  norm_num at h
  exact h

/-- C4, refuted as stated: a table with a negative weight and a table whose
energies decrease both yield a histogram. -/
theorem C4_histogram_without_validation :
    spectrumOfTable [((1 : ℚ), (-5 : ℚ)), (2, 3)] = some ⟨2, [1, 2, 3], [0, -5, 3, 0]⟩ ∧
    spectrumOfTable [((2 : ℚ), (1 : ℚ)), (1, 1)] = some ⟨2, [2, 1, 0], [0, 1, 1, 0]⟩ := by
  constructor
  · rw [spectrumOfTable_eq _ (by simp)]
    norm_num
  · rw [spectrumOfTable_eq _ (by simp)]
    norm_num

/-- C4, amended: the construction validates nothing; for every table with at
least two entries, whatever the signs of the weights and the order of the
energies, it yields a histogram with one bin per entry that holds the
weights as given. -/
theorem C4_histogram_always_built (tbl : List (α × α)) (hN : 2 ≤ tbl.length) :
    ∃ h : TH1F α, spectrumOfTable tbl = some h ∧ h.fNbins = tbl.length ∧
      h.contents = tbl.map Prod.snd := by
  refine ⟨_, spectrumOfTable_eq tbl hN, rfl, ?_⟩
  have hl : (tbl.map Prod.snd).length = tbl.length := List.length_map _ _
  have h := contents_eq (tbl.map Prod.fst ++ [(tbl.map Prod.fst).getD (tbl.length - 1) 0
      + ((tbl.map Prod.fst).getD (tbl.length - 1) 0
        - (tbl.map Prod.fst).getD (tbl.length - 2) 0)]) (tbl.map Prod.snd)
  rw [hl] at h
  exact h

/-- Witness of C4 (amended): a table with a negative weight. -/
theorem C4_histogram_always_built_witness :
    ∃ h : TH1F ℚ, spectrumOfTable [((1 : ℚ), (-5 : ℚ)), (2, 3)] = some h ∧
      h.fNbins = 2 ∧ h.contents = [-5, 3] :=
  C4_histogram_always_built [((1 : ℚ), (-5 : ℚ)), (2, 3)] (by decide)

/-- C8: for a table with `N ≥ 2` strictly increasing energies and positive total
weight, and variates in `[0,1)`, the histogram is built, the sampler returns
an energy, this is the energy that `GeneratePrimaries` sets, and it lies in
`[edge[0], edge[N]]`. -/
theorem C8_sample_within_edges (tbl : List (ℝ × ℝ)) (mm : ℝ) (env : Env)
    (hN : 2 ≤ tbl.length)
    (hs : (tbl.map Prod.fst).Pairwise (fun a b => a < b))
    (htot : 0 < (tbl.map Prod.snd).sum)
    (hu : 0 ≤ env.gRandom 0 ∧ env.gRandom 0 < 1)
    (hv : 0 ≤ env.gRandom 1 ∧ env.gRandom 1 < 1) :
    ∃ (h : TH1F ℝ) (edges : List ℝ) (e lo hi : ℝ),
      spectrumOfTable tbl = some h ∧ edgesOfTable tbl = some edges ∧
      h.GetRandom (env.gRandom 0) (env.gRandom 1) = some e ∧
      (GeneratePrimaries mm h env).1.energy = some e ∧
      edges[0]? = some lo ∧ edges[tbl.length]? = some hi ∧ lo ≤ e ∧ e ≤ hi := by
  have hl1 : (tbl.map Prod.fst).length = tbl.length := List.length_map _ _
  have hl2 : (tbl.map Prod.snd).length = tbl.length := List.length_map _ _
  have hne : tbl.map Prod.snd ≠ [] := by
    intro hc
    rw [hc] at hl2
    simp only [List.length_nil] at hl2
    omega
  have hsort := edges_pairwise (tbl.map Prod.fst) (by omega) hs
  rw [hl1] at hsort
  obtain ⟨e, lo, hi, g1, g2, g3, g4, g5⟩ := GetRandom_in_range _ (tbl.map Prod.snd)
    (env.gRandom 0) (env.gRandom 1)
    (by rw [List.length_append, hl1, hl2, List.length_singleton]) hne hsort htot hu.2 hv.1 hv.2.le
  rw [hl2] at g1 g3
  refine ⟨_, _, e, lo, hi, spectrumOfTable_eq tbl hN, edgesOfTable_eq tbl hN, g1, ?_, g2, g3,
    g4, g5⟩
  rw [GeneratePrimaries_energy, g1]

/-- Witness of C8: the table `[(1,5), (2,3), (3,2)]` with both variates `1/2`. -/
theorem C8_sample_within_edges_witness :
    ∃ (h : TH1F ℝ) (edges : List ℝ) (e lo hi : ℝ),
      spectrumOfTable [((1 : ℝ), (5 : ℝ)), (2, 3), (3, 2)] = some h ∧
      edgesOfTable [((1 : ℝ), (5 : ℝ)), (2, 3), (3, 2)] = some edges ∧
      h.GetRandom (envHalf.gRandom 0) (envHalf.gRandom 1) = some e ∧
      (GeneratePrimaries 1 h envHalf).1.energy = some e ∧
      edges[0]? = some lo ∧ edges[3]? = some hi ∧ lo ≤ e ∧ e ≤ hi :=
  C8_sample_within_edges [((1 : ℝ), (5 : ℝ)), (2, 3), (3, 2)] 1 envHalf (by decide)
    (by norm_num) (by norm_num) (by norm_num [envHalf]) (by norm_num [envHalf])

/-- The line `1.0 5` holds the pair `(1, 5)` for the sample conversion. -/
theorem lineReads_one_five :
    LineReads (readDecimal : List Char → NumGet ℚ) "1.0 5" 1 5 := by
  refine ⟨[' ', '5'], [], by decide, ?_, by decide, ?_⟩
  · simp [readDecimal, natOfDigits, List.span, List.span.loop, isspace, Char.isDigit]
  · simp [readDecimal, natOfDigits, List.span, List.span.loop, isspace, Char.isDigit]

/-- The line `2.0 3` holds the pair `(2, 3)` for the sample conversion. -/
theorem lineReads_two_three :
    LineReads (readDecimal : List Char → NumGet ℚ) "2.0 3" 2 3 := by
  refine ⟨[' ', '3'], [], by decide, ?_, by decide, ?_⟩
  · simp [readDecimal, natOfDigits, List.span, List.span.loop, isspace, Char.isDigit]
  · simp [readDecimal, natOfDigits, List.span, List.span.loop, isspace, Char.isDigit]

/-- For a file with at least two non-comment lines, all well-formed
`<energy> <weight>` pairs, the lines starting with `#` are skipped (the result
is that of the file without them) and a histogram is built with one bin per
remaining line, in file order: bin `i` has the weight of the `i`-th remaining
line as content and its energy as lower edge. -/
theorem ReadBetaSpectrum_two_data_lines (numGet : List Char → NumGet α)
    (lines : List String) (tbl : List (α × α))
    (hwf : List.Forall₂ (fun l p => LineReads numGet l p.1 p.2)
      (lines.filter isDataLine) tbl)
    (hN : 2 ≤ (lines.filter isDataLine).length) :
    ∃ h : TH1F α, ReadBetaSpectrum numGet lines = some h ∧
      ReadBetaSpectrum numGet (lines.filter isDataLine) = some h ∧
      h.fNbins = (lines.filter isDataLine).length ∧
      tbl.length = (lines.filter isDataLine).length ∧
      (∀ (i : Nat) (hi : i < tbl.length),
        h.GetBinContent (i + 1) = (tbl[i]).2 ∧ h.GetBinLowEdge (i + 1) = some (tbl[i]).1) := by
  have hlen : (lines.filter isDataLine).length = tbl.length := hwf.length_eq
  have hN1 : 2 ≤ tbl.length := by omega
  have hwf2 : List.Forall₂ (fun l p => LineReads numGet l p.1 p.2)
      ((lines.filter isDataLine).filter isDataLine) tbl := by
    rw [List.filter_filter]
    simpa using hwf
  have e1 := ReadBetaSpectrum_eq_table numGet lines tbl hwf
  have e2 := ReadBetaSpectrum_eq_table numGet _ tbl hwf2
  rw [spectrumOfTable_eq tbl hN1] at e1 e2
  refine ⟨_, e1, e2, hlen.symm, hlen.symm, ?_⟩
  · intro i hi
    have b1 : i < (tbl.map Prod.snd).length := by rw [List.length_map]; exact hi
    have b2 : i < (tbl.map Prod.fst).length := by rw [List.length_map]; exact hi
    constructor
    · simp only [TH1F.GetBinContent]
      rw [List.getD_eq_getElem?_getD, List.getElem?_cons_succ, List.getElem?_append_left b1,
        List.getElem?_eq_getElem b1, List.getElem_map]
      rfl
    · simp only [TH1F.GetBinLowEdge, Nat.add_sub_cancel]
      rw [List.getElem?_append_left b2, List.getElem?_eq_getElem b2, List.getElem_map]

/-- A sample file: a comment line followed by `1.0 5` and `2.0 3`. -/
theorem ReadBetaSpectrum_sample_file :
    ∃ h : TH1F ℚ,
      ReadBetaSpectrum (readDecimal : List Char → NumGet ℚ)
        ["# energy weight", "1.0 5", "2.0 3"] = some h ∧
      h.fNbins = 2 ∧ h.GetBinContent 1 = 5 ∧ h.GetBinLowEdge 1 = some 1 ∧
      h.GetBinContent 2 = 3 ∧ h.GetBinLowEdge 2 = some 2 := by
  have hf : List.filter isDataLine ["# energy weight", "1.0 5", "2.0 3"]
      = ["1.0 5", "2.0 3"] := by decide
  obtain ⟨h, h1, _, h3, _, h5⟩ := ReadBetaSpectrum_two_data_lines
    (readDecimal : List Char → NumGet ℚ)
    ["# energy weight", "1.0 5", "2.0 3"] [((1 : ℚ), (5 : ℚ)), (2, 3)]
    (by
      rw [hf]
      exact List.Forall₂.cons lineReads_one_five
        (List.Forall₂.cons lineReads_two_three List.Forall₂.nil))
    (by rw [hf]; decide)
  rw [hf] at h3
  exact ⟨h, h1, h3, (h5 0 (by decide)).1, (h5 0 (by decide)).2, (h5 1 (by decide)).1,
    (h5 1 (by decide)).2⟩

end SpectrumLemmas

/-! ## Lemmas on the rounding of `double` -/

/-- The rounded integer is the floor or the floor plus one. -/
theorem rne_bounds (t : ℚ) : ⌊t⌋ ≤ rne t ∧ rne t ≤ ⌊t⌋ + 1 := by
  unfold rne
  split_ifs <;> omega

/-- Integers round to themselves. -/
theorem rne_intCast (n : ℤ) : rne (n : ℚ) = n := by
  unfold rne
  simp

/-- Rounding to the nearest integer is monotone. -/
theorem rne_mono {t u : ℚ} (h : t ≤ u) : rne t ≤ rne u := by
  have hf : ⌊t⌋ ≤ ⌊u⌋ := Int.floor_mono h
  rcases lt_or_eq_of_le hf with hlt | heq
  · have := (rne_bounds t).2
    have := (rne_bounds u).1
    omega
  · unfold rne
    rw [← heq]
    split_ifs <;> first | omega | linarith

/-- Rounding keeps non-negative numbers non-negative. -/
theorem rne_nonneg {t : ℚ} (h : 0 ≤ t) : 0 ≤ rne t := by
  have := rne_mono h
  rwa [show (0 : ℚ) = ((0 : ℤ) : ℚ) by simp, rne_intCast] at this

/-- The exponent is monotone on positive magnitudes. -/
theorem expo_mono {a b : ℚ} (ha : 0 < a) (h : a ≤ b) : expo a ≤ expo b := by
  unfold expo
  have := Int.log_mono_right (b := 2) ha h
  have h1 : max (Int.log 2 a) (-1022) ≤ max (Int.log 2 b) (-1022) := max_le_max this (le_refl _)
  omega

/-- Powers of two are positive. -/
theorem two_zpow_pos (k : ℤ) : (0 : ℚ) < 2 ^ k := zpow_pos (by norm_num) k

/-- Powers of two grow with the exponent. -/
theorem two_zpow_mono {m n : ℤ} (h : m ≤ n) : (2 : ℚ) ^ m ≤ 2 ^ n :=
  zpow_le_zpow_right₀ (by norm_num) h

/-- Below the next power of two. -/
theorem lt_two_zpow_expo {a : ℚ} : a < 2 ^ (expo a + 53) := by
  have h1 : a < ((2 : ℕ) : ℚ) ^ (Int.log 2 a + 1) := Int.lt_zpow_succ_log_self (by norm_num) a
  have h2 : Int.log 2 a + 1 ≤ expo a + 53 := by
    unfold expo
    have := le_max_left (Int.log 2 a) (-1022)
    omega
  have h3 := two_zpow_mono h2
  have : ((2 : ℕ) : ℚ) = 2 := by norm_num
  rw [this] at h1
  linarith

/-- In the normal range the value is at least its power of two. -/
theorem two_zpow_expo_le {a : ℚ} (ha : 0 < a) (hn : -1074 < expo a) : 2 ^ (expo a + 52) ≤ a := by
  have h1 : ((2 : ℕ) : ℚ) ^ (Int.log 2 a) ≤ a := Int.zpow_log_le_self (by norm_num) ha
  have h2 : expo a + 52 = Int.log 2 a := by
    unfold expo at hn ⊢
    rcases le_total (Int.log 2 a) (-1022) with h | h
    · rw [max_eq_right h] at hn
      omega
    · rw [max_eq_left h]
      omega
  have : ((2 : ℕ) : ℚ) = 2 := by norm_num
  rw [this] at h1
  rw [h2]
  exact h1

/-- The exponent never goes below the subnormal spacing. -/
theorem expo_ge (a : ℚ) : -1074 ≤ expo a := by
  unfold expo
  have := le_max_right (Int.log 2 a) (-1022)
  omega

/-- Zero rounds to zero. -/
theorem roundMag_zero : roundMag 0 = 0 := by
  unfold roundMag
  simp [rne]

/-- A rounded magnitude is non-negative. -/
theorem roundMag_nonneg {a : ℚ} (ha : 0 ≤ a) : 0 ≤ roundMag a := by
  unfold roundMag
  have h1 : 0 ≤ a / 2 ^ expo a := div_nonneg ha (two_zpow_pos _).le
  have h2 := rne_nonneg h1
  have h3 : (0 : ℚ) ≤ (rne (a / 2 ^ expo a) : ℚ) := by exact_mod_cast h2
  exact mul_nonneg h3 (two_zpow_pos _).le

/-- A rounded magnitude does not pass the next power of two. -/
theorem roundMag_le {a : ℚ} : roundMag a ≤ 2 ^ (expo a + 53) := by
  unfold roundMag
  have hq := two_zpow_pos (expo a)
  have h1 : a / 2 ^ expo a ≤ (((2 : ℤ) ^ 53 : ℤ) : ℚ) := by
    rw [div_le_iff₀ hq]
    have := @lt_two_zpow_expo a
    have e : (((2 : ℤ) ^ 53 : ℤ) : ℚ) * 2 ^ expo a = 2 ^ (expo a + 53) := by
      rw [zpow_add₀ (by norm_num : (2 : ℚ) ≠ 0)]
      push_cast
      rw [mul_comm]
      norm_cast
    rw [e]
    exact this.le
  have h2 := rne_mono h1
  rw [rne_intCast] at h2
  have h3 : (rne (a / 2 ^ expo a) : ℚ) ≤ (((2 : ℤ) ^ 53 : ℤ) : ℚ) := by exact_mod_cast h2
  have e : (2 : ℚ) ^ (expo a + 53) = (((2 : ℤ) ^ 53 : ℤ) : ℚ) * 2 ^ expo a := by
    rw [zpow_add₀ (by norm_num : (2 : ℚ) ≠ 0)]
    push_cast
    rw [mul_comm]
    norm_cast
  rw [e]
  exact mul_le_mul_of_nonneg_right h3 hq.le

/-- In the normal range a rounded magnitude stays above its power of two. -/
theorem le_roundMag {a : ℚ} (ha : 0 < a) (hn : -1074 < expo a) :
    2 ^ (expo a + 52) ≤ roundMag a := by
  unfold roundMag
  have hq := two_zpow_pos (expo a)
  have e : (2 : ℚ) ^ (expo a + 52) = (((2 : ℤ) ^ 52 : ℤ) : ℚ) * 2 ^ expo a := by
    rw [zpow_add₀ (by norm_num : (2 : ℚ) ≠ 0)]
    push_cast
    rw [mul_comm]
    norm_cast
  have h1 : (((2 : ℤ) ^ 52 : ℤ) : ℚ) ≤ a / 2 ^ expo a := by
    rw [le_div_iff₀ hq, ← e]
    exact two_zpow_expo_le ha hn
  have h2 := rne_mono h1
  rw [rne_intCast] at h2
  have h3 : (((2 : ℤ) ^ 52 : ℤ) : ℚ) ≤ (rne (a / 2 ^ expo a) : ℚ) := by exact_mod_cast h2
  rw [e]
  exact mul_le_mul_of_nonneg_right h3 hq.le

/-- Rounding of magnitudes is monotone. -/
theorem roundMag_mono {a b : ℚ} (ha : 0 ≤ a) (h : a ≤ b) : roundMag a ≤ roundMag b := by
  rcases eq_or_lt_of_le ha with h0 | hpos
  · rw [← h0, roundMag_zero]
    exact roundMag_nonneg (ha.trans h)
  · have he := expo_mono hpos h
    rcases eq_or_lt_of_le he with heq | hlt
    · unfold roundMag
      rw [heq]
      have hq := two_zpow_pos (expo b)
      have h1 : a / 2 ^ expo b ≤ b / 2 ^ expo b := div_le_div_of_nonneg_right h hq.le
      have h2 := rne_mono h1
      have h3 : (rne (a / 2 ^ expo b) : ℚ) ≤ (rne (b / 2 ^ expo b) : ℚ) := by exact_mod_cast h2
      exact mul_le_mul_of_nonneg_right h3 hq.le
    · have h1 := @roundMag_le a
      have h2 := le_roundMag (hpos.trans_le h) (by have := expo_ge a; omega)
      have h3 : (2 : ℚ) ^ (expo a + 53) ≤ 2 ^ (expo b + 52) := two_zpow_mono (by omega)
      linarith

/-- Rounding to nearest is monotone. -/
theorem roundQ_mono {x y : ℚ} (h : x ≤ y) : roundQ x ≤ roundQ y := by
  unfold roundQ
  by_cases hx : 0 ≤ x
  · rw [if_pos hx, if_pos (hx.trans h)]
    exact roundMag_mono hx h
  · rw [if_neg hx]
    push_neg at hx
    by_cases hy : 0 ≤ y
    · rw [if_pos hy]
      have := roundMag_nonneg (show (0 : ℚ) ≤ -x by linarith)
      have := roundMag_nonneg hy
      linarith
    · rw [if_neg hy]
      push_neg at hy
      have := roundMag_mono (show (0 : ℚ) ≤ -y by linarith) (show -y ≤ -x by linarith)
      linarith

/-- Zero rounds to zero, signed version. -/
theorem roundQ_zero : roundQ 0 = 0 := by
  unfold roundQ
  rw [if_pos (le_refl _), roundMag_zero]

/-- The exponent of a magnitude in the binade `[2 ^ k, 2 ^ (k + 1))`. -/
theorem expo_eq {a : ℚ} (k : ℤ) (h1 : 2 ^ k ≤ a) (h2 : a < 2 ^ (k + 1)) (hk : -1022 ≤ k) :
    expo a = k - 52 := by
  have ha : 0 < a := (two_zpow_pos k).trans_le h1
  have c : ((2 : ℕ) : ℚ) = 2 := by norm_num
  have l1 : k ≤ Int.log 2 a := by
    rw [← Int.zpow_le_iff_le_log (by norm_num) ha, c]
    exact h1
  have l2 : Int.log 2 a < k + 1 := by
    rw [← Int.lt_zpow_iff_log_lt (by norm_num) ha, c]
    exact h2
  unfold expo
  rw [max_eq_left (by omega)]
  omega

/-- Rounding of a positive number of a known binade. -/
theorem roundQ_eq {a : ℚ} (k n : ℤ) (h1 : 2 ^ k ≤ a) (h2 : a < 2 ^ (k + 1)) (hk : -1022 ≤ k)
    (hn : rne (a / 2 ^ (k - 52)) = n) : roundQ a = (n : ℚ) * 2 ^ (k - 52) := by
  have ha : 0 < a := (two_zpow_pos k).trans_le h1
  unfold roundQ
  rw [if_pos ha.le]
  unfold roundMag
  rw [expo_eq k h1 h2 hk, hn]

/-- A tie above an even integer rounds down to it. -/
theorem rne_half_even (n : ℤ) (hn : n % 2 = 0) : rne ((n : ℚ) + 1 / 2) = n := by
  have hf : ⌊(n : ℚ) + 1 / 2⌋ = n := by
    rw [Int.floor_eq_iff]
    constructor <;> linarith
  unfold rne
  rw [hf]
  have e : (n : ℚ) + 1 / 2 - n = 1 / 2 := by ring
  rw [e, if_neg (lt_irrefl _), if_neg (lt_irrefl _), if_pos hn]

/-- A multiple of the unit in the last place of its binade rounds to itself. -/
theorem roundQ_fixed {a : ℚ} (k n : ℤ) (h1 : 2 ^ k ≤ a) (h2 : a < 2 ^ (k + 1)) (hk : -1022 ≤ k)
    (hn : a = (n : ℚ) * 2 ^ (k - 52)) : roundQ a = a := by
  have hq := two_zpow_pos (k - 52)
  have e : a / 2 ^ (k - 52) = (n : ℚ) := by
    rw [div_eq_iff hq.ne']
    exact hn
  rw [roundQ_eq k n h1 h2 hk (by rw [e, rne_intCast])]
  exact hn.symm

/-- Rounding an exact result that is already a value gives that value. -/
theorem Double.round_of_fixed {q : ℚ} (h : roundQ q = q) (hb : |q| < 2 ^ 1024) :
    Double.round q = Double.fin q := by
  obtain ⟨hb1, hb2⟩ := abs_lt.mp hb
  unfold Double.round
  rw [h, if_neg (not_le.mpr hb2), if_neg (not_le.mpr hb1)]

/-- The extrapolation `last + (last - prev)` in `double` never falls below
`last` when `prev < last`: the difference rounds to a non-negative value, and
the sum rounds to a value not below the value `last`. -/
theorem Double.le_add_sub (prev last : Double) (hl : last.IsValue)
    (h : Double.lt prev last) : Double.le last (last + (last - prev)) := by
  cases last with
  | nan => cases prev <;> exact False.elim h
  | ninf => cases prev <;> exact False.elim h
  | pinf =>
    cases prev with
    | fin a => trivial
    | ninf => trivial
    | pinf => exact False.elim h
    | nan => exact False.elim h
  | fin b =>
    cases prev with
    | nan => exact False.elim h
    | pinf => exact False.elim h
    | ninf => trivial
    | fin a =>
      have hab : a < b := h
      obtain ⟨hfix, hbound⟩ := hl
      obtain ⟨hb1, -⟩ := abs_lt.mp hbound
      have hd : 0 ≤ roundQ (b + -a) := by
        have := roundQ_mono (show (0 : ℚ) ≤ b + -a by linarith)
        rwa [roundQ_zero] at this
      show Double.le (Double.fin b)
        (Double.add (Double.fin b) (Double.round (b + -a)))
      unfold Double.round
      by_cases c1 : (2 : ℚ) ^ 1024 ≤ roundQ (b + -a)
      · rw [if_pos c1]
        trivial
      · rw [if_neg c1]
        have c2 : ¬ roundQ (b + -a) ≤ -(2 : ℚ) ^ 1024 := by
          intro hc
          have : (0 : ℚ) < 2 ^ 1024 := by positivity
          linarith
        rw [if_neg c2]
        have hs : b ≤ roundQ (b + roundQ (b + -a)) := by
          have := roundQ_mono (show b ≤ b + roundQ (b + -a) by linarith)
          rwa [hfix] at this
        show Double.le (Double.fin b) (Double.round (b + roundQ (b + -a)))
        unfold Double.round
        by_cases c3 : (2 : ℚ) ^ 1024 ≤ roundQ (b + roundQ (b + -a))
        · rw [if_pos c3]
          trivial
        · rw [if_neg c3]
          have c4 : ¬ roundQ (b + roundQ (b + -a)) ≤ -(2 : ℚ) ^ 1024 := by
            intro hc
            linarith
          rw [if_neg c4]
          exact hs

/-- Closed form of the bin edges for at least two energies, in any arithmetic. -/
theorem binEdges_of_two {α : Type} [Add α] [Sub α] (energies : List α)
    (hN : 2 ≤ energies.length) :
    ∃ last prev : α, energies[energies.length - 1]? = some last ∧
      energies[energies.length - 2]? = some prev ∧
      binEdges energies (energies.length : Int) = some (energies ++ [last + (last - prev)]) := by
  have h1 : ((energies.length : Int) - 1) = ((energies.length - 1 : Nat) : Int) := by omega
  have h2 : ((energies.length : Int) - 2) = ((energies.length - 2 : Nat) : Int) := by omega
  have l1 : energies.length - 1 < energies.length := by omega
  have l2 : energies.length - 2 < energies.length := by omega
  refine ⟨energies[energies.length - 1], energies[energies.length - 2],
    List.getElem?_eq_getElem l1, List.getElem?_eq_getElem l2, ?_⟩
  unfold binEdges
  rw [Int.toNat_ofNat, pushEdges_take energies _ (le_refl _), h1, h2, vecAt_natCast,
    vecAt_natCast, List.getElem?_eq_getElem l1, List.getElem?_eq_getElem l2, List.take_length]

/-- The small integers `1`, `2`, `3` are values of `double`. -/
theorem isValue_small :
    (Double.fin 1).IsValue ∧ (Double.fin 2).IsValue ∧ (Double.fin 3).IsValue := by
  refine ⟨⟨?_, by norm_num⟩, ⟨?_, by norm_num⟩, ⟨?_, by norm_num⟩⟩
  · exact roundQ_fixed 0 (2 ^ 52) (by norm_num) (by norm_num) (by norm_num) (by norm_num)
  · exact roundQ_fixed 1 (2 ^ 52) (by norm_num) (by norm_num) (by norm_num) (by norm_num)
  · exact roundQ_fixed 1 (3 * 2 ^ 51) (by norm_num) (by norm_num) (by norm_num) (by norm_num)

/-- The integers `2 ^ 53 - 1` and `2 ^ 53` are values of `double`. -/
theorem isValue_two_pow_53 :
    (Double.fin (2 ^ 53 - 1)).IsValue ∧ (Double.fin (2 ^ 53)).IsValue := by
  refine ⟨⟨?_, by norm_num⟩, ⟨?_, by norm_num⟩⟩
  · exact roundQ_fixed 52 (2 ^ 53 - 1) (by norm_num) (by norm_num) (by norm_num) (by norm_num)
  · exact roundQ_fixed 53 (2 ^ 52) (by norm_num) (by norm_num) (by norm_num) (by norm_num)

/-- The odd integer `2 ^ 53 + 1` lies halfway between two values and rounds to the
even one, `2 ^ 53`. -/
theorem roundQ_two_pow_53_add_one : roundQ (2 ^ 53 + 1) = 2 ^ 53 := by
  have h := roundQ_eq (a := 2 ^ 53 + 1) 53 (2 ^ 52) (by norm_num) (by norm_num) (by norm_num)
    (by
      have e : ((2 : ℚ) ^ 53 + 1) / 2 ^ ((53 : ℤ) - 52) = (((2 : ℤ) ^ 52 : ℤ) : ℚ) + 1 / 2 := by
        norm_num
      rw [e, rne_half_even _ (by norm_num)])
  rw [h]
  norm_num

/-! ## Claim on the order of the bin edges -/

/-- C10, refuted as stated: the energies `2^53 - 1 < 2^53` are strictly increasing
values of `double`, the difference is `1`, and the sum `2^53 + 1` rounds back
to `2^53`; the edges are `[2^53 - 1, 2^53, 2^53]` and the last bin has width
zero. -/
theorem C10_last_edge_rounds_back :
    (∀ p ∈ [(Double.fin (2 ^ 53 - 1), Double.fin 5), (Double.fin (2 ^ 53), Double.fin 3)],
      p.1.IsValue) ∧
    ([(Double.fin (2 ^ 53 - 1), Double.fin 5), (Double.fin (2 ^ 53), Double.fin 3)].map
      Prod.fst).Pairwise Double.lt ∧
    edgesOfTable [(Double.fin (2 ^ 53 - 1), Double.fin 5), (Double.fin (2 ^ 53), Double.fin 3)]
      = some [Double.fin (2 ^ 53 - 1), Double.fin (2 ^ 53), Double.fin (2 ^ 53)] ∧
    ¬ Double.lt (Double.fin (2 ^ 53)) (Double.fin (2 ^ 53)) ∧
    ¬ [Double.fin (2 ^ 53 - 1), Double.fin (2 ^ 53), Double.fin (2 ^ 53)].Pairwise
      Double.lt := by
  have hirr : ¬ Double.lt (Double.fin (2 ^ 53)) (Double.fin (2 ^ 53)) := by
    show ¬ ((2 : ℚ) ^ 53 < 2 ^ 53)
    exact lt_irrefl _
  have hsub : (Double.fin (2 ^ 53) - Double.fin (2 ^ 53 - 1) : Double) = Double.fin 1 := by
    show Double.round ((2 : ℚ) ^ 53 + -((2 : ℚ) ^ 53 - 1)) = Double.fin 1
    have e : (2 : ℚ) ^ 53 + -((2 : ℚ) ^ 53 - 1) = 1 := by ring
    rw [e]
    exact Double.round_of_fixed isValue_small.1.1 isValue_small.1.2
  have hadd : (Double.fin (2 ^ 53) + Double.fin 1 : Double) = Double.fin (2 ^ 53) := by
    show Double.round ((2 : ℚ) ^ 53 + 1) = Double.fin (2 ^ 53)
    unfold Double.round
    rw [roundQ_two_pow_53_add_one, if_neg (by norm_num), if_neg (by norm_num)]
  refine ⟨?_, ?_, ?_, hirr, ?_⟩
  · intro p hp
    simp only [List.mem_cons, List.mem_singleton, List.not_mem_nil, or_false] at hp
    rcases hp with h | h
    · rw [h]
      exact isValue_two_pow_53.1
    · rw [h]
      exact isValue_two_pow_53.2
  · simp only [List.map_cons, List.map_nil, List.pairwise_cons, List.mem_singleton,
      List.not_mem_nil, forall_eq, false_imp_iff, implies_true, List.Pairwise.nil, and_true]
    show (2 : ℚ) ^ 53 - 1 < 2 ^ 53
    norm_num
  · obtain ⟨last, prev, g1, g2, g3⟩ := binEdges_of_two
      ([(Double.fin (2 ^ 53 - 1), Double.fin 5), (Double.fin (2 ^ 53), Double.fin 3)].map
        Prod.fst) (by decide)
    have g1a : last = Double.fin (2 ^ 53) := (Option.some.inj g1).symm
    have g2a : prev = Double.fin (2 ^ 53 - 1) := (Option.some.inj g2).symm
    rw [g1a, g2a, hsub, hadd] at g3
    exact g3
  · intro hp
    have h1 := (List.pairwise_cons.mp hp).2
    have h2 := (List.pairwise_cons.mp h1).1
    exact hirr (h2 _ (List.mem_singleton.mpr rfl))

/-- C10, amended: for a table with `N ≥ 2` strictly increasing energies, all values
of `double`, the first `N` bin edges are strictly increasing and the
extrapolated last edge is not below its predecessor, `edge[N-1] ≤ edge[N]`
(it may be `+∞`); so every bin but the last has positive width and the last
has non-negative width. -/
theorem C10_edges_nondecreasing (tbl : List (Double × Double)) (hN : 2 ≤ tbl.length)
    (hv : ∀ p ∈ tbl, p.1.IsValue)
    (hs : (tbl.map Prod.fst).Pairwise Double.lt) :
    ∃ edges : List Double, edgesOfTable tbl = some edges ∧
      edges.length = tbl.length + 1 ∧
      (edges.take tbl.length).Pairwise Double.lt ∧
      (∀ i : Nat, i + 1 < tbl.length →
        ∃ lo hi : Double, edges[i]? = some lo ∧ edges[i + 1]? = some hi ∧ Double.lt lo hi) ∧
      (∃ eN1 eN : Double, edges[tbl.length - 1]? = some eN1 ∧ edges[tbl.length]? = some eN ∧
        Double.le eN1 eN) := by
  have hl : (tbl.map Prod.fst).length = tbl.length := List.length_map _ _
  obtain ⟨last, prev, g1, g2, g3⟩ := binEdges_of_two (tbl.map Prod.fst) (by omega)
  rw [hl] at g1 g2 g3
  have l1 : tbl.length - 1 < (tbl.map Prod.fst).length := by omega
  have l2 : tbl.length - 2 < (tbl.map Prod.fst).length := by omega
  have hp := List.pairwise_iff_getElem.mp hs
  have e1 : (tbl.map Prod.fst)[tbl.length - 1] = last := by
    rw [List.getElem?_eq_getElem l1] at g1
    exact Option.some.inj g1
  have e2 : (tbl.map Prod.fst)[tbl.length - 2] = prev := by
    rw [List.getElem?_eq_getElem l2] at g2
    exact Option.some.inj g2
  have hlt : Double.lt prev last := by
    rw [← e1, ← e2]
    exact hp _ _ l2 l1 (by omega)
  have hval : last.IsValue := by
    have hm : last ∈ tbl.map Prod.fst := by
      rw [← e1]
      exact List.getElem_mem _
    obtain ⟨p, hp1, hp2⟩ := List.mem_map.mp hm
    rw [← hp2]
    exact hv p hp1
  refine ⟨_, g3, ?_, ?_, ?_, ?_⟩
  · rw [List.length_append, hl, List.length_singleton]
  · rw [List.take_left' hl]
    exact hs
  · intro i hi
    have b1 : i < (tbl.map Prod.fst).length := by omega
    have b2 : i + 1 < (tbl.map Prod.fst).length := by omega
    refine ⟨(tbl.map Prod.fst)[i], (tbl.map Prod.fst)[i + 1], ?_, ?_, hp i (i + 1) b1 b2 (by omega)⟩
    · rw [List.getElem?_append_left b1, List.getElem?_eq_getElem b1]
    · rw [List.getElem?_append_left b2, List.getElem?_eq_getElem b2]
  · refine ⟨last, last + (last - prev), ?_, ?_, Double.le_add_sub prev last hval hlt⟩
    · rw [List.getElem?_append_left l1]
      exact g1
    · rw [List.getElem?_append_right (by rw [hl]), hl, Nat.sub_self]
      rfl

/-- Witness of C10 (amended): the table `[(1,5), (2,3), (3,2)]` in `double`. -/
theorem C10_edges_nondecreasing_witness :
    ∃ edges : List Double,
      edgesOfTable [(Double.fin 1, Double.fin 5), (Double.fin 2, Double.fin 3),
        (Double.fin 3, Double.fin 2)] = some edges ∧
      edges.length = 4 ∧
      (∃ eN1 eN : Double, edges[2]? = some eN1 ∧ edges[3]? = some eN ∧ Double.le eN1 eN) := by
  obtain ⟨edges, h1, h2, _, _, h5⟩ := C10_edges_nondecreasing
    [(Double.fin 1, Double.fin 5), (Double.fin 2, Double.fin 3), (Double.fin 3, Double.fin 2)]
    (by decide)
    (by
      intro p hp
      simp only [List.mem_cons, List.mem_singleton, List.not_mem_nil, or_false] at hp
      rcases hp with h | h | h
      · rw [h]
        exact isValue_small.1
      · rw [h]
        exact isValue_small.2.1
      · rw [h]
        exact isValue_small.2.2)
    (by
      simp only [List.map_cons, List.map_nil, List.pairwise_cons, List.mem_cons,
        List.mem_singleton, List.not_mem_nil, forall_eq_or_imp, forall_eq, false_imp_iff,
        implies_true, List.Pairwise.nil, and_true]
      refine ⟨⟨?_, ?_⟩, ?_⟩
      · show (1 : ℚ) < 2
        norm_num
      · show (1 : ℚ) < 3
        norm_num
      · show (2 : ℚ) < 3
        norm_num)
  exact ⟨edges, h1, h2, h5⟩

end B3
